import Mathlib

/-!
Verification development for the half2 repository.

The core of half2 is `BufTree` (src/tree.rs): a B-tree whose nodes live as
fixed-size records inside a byte buffer, with an intrusive free list, and an
upsert `insert` that returns the displaced key.  The consumer is the
line-index builder in src/main.rs.

The development has two layers, both translated from src/tree.rs:

* a record-level shallow embedding of the tree engine (`Half2` namespace):
  the byte buffer is modelled as a map from byte offsets to the records the
  engine writes there (nodes and free cells); offset arithmetic (`last`,
  slot widths) is kept in bytes exactly as in the source.  Loops descending
  through store offsets are modelled with explicit fuel; running out of fuel
  models nontermination.  Rust `Vec` operations that can panic are modelled
  by `Option`-returning functions lifted into `Except`, with `TErr.panicked`
  playing the role of a Rust panic.

* a byte-level embedding of the record codec and the free-cell read
  (`Half2.Bytes` namespace): the buffer is a total function from byte
  offsets to bytes together with a cursor, and `write_node` / `read_node` /
  `read_gone` are translated write for write and read for read.

Keys: the engine is generic over a `Copy + Ord` key.  The program's key
types (u64 in the unit tests, `IndexItem` in main.rs) compare on an identity
part and carry satellite data that does not take part in the ordering
(`IndexItem` compares `(hash, order)` only).  We model a key as a pair
`K × D` where `K` is the identity (linearly ordered) and `D` the satellite
data; equality and ordering used by the engine look only at the first
component, exactly like `IndexItem`'s `Ord`/`PartialEq` instances.  For the
u64 instantiation `D = Unit`.
-/

namespace Half2

/-- Errors of the embedded engine.  `invalidData` is `io::ErrorKind::InvalidData`
(the corruption errors of `read_node`), `panicked` models a Rust panic
(`unwrap` of `None`, out-of-bounds `Vec` indexing), and `fuel` models a
descent loop that runs beyond the given fuel, i.e. nontermination. -/
inductive TErr where
  | invalidData : TErr
  | panicked : TErr
  | fuel : TErr
deriving DecidableEq, Repr

/-- Lift a possibly-panicking `Vec` operation into the engine monad. -/
def liftOpt : Option α → Except TErr α
  | some a => .ok a
  | none => .error .panicked

/-- `Vec::swap(i, j)`: panics when an index is out of bounds. -/
def vswap (l : List α) (i j : Nat) : Option (List α) :=
  match l.get? i, l.get? j with
  | some xi, some xj => some ((l.set i xj).set j xi)
  | _, _ => none

/-- `Vec::pop()` as used with `.unwrap()`: the last element and the rest. -/
def vpop (l : List α) : Option (α × List α) :=
  match l.getLast? with
  | some x => some (x, l.dropLast)
  | none => none

/-- `Vec::remove(i)`: removes and returns the element at `i`; panics out of bounds. -/
def vremove (l : List α) (i : Nat) : Option (α × List α) :=
  match l.get? i with
  | some x => some (x, l.eraseIdx i)
  | none => none

/-- `Vec::insert(i, x)`: shifts the tail right; panics when `i > len`. -/
def vinsert (l : List α) (i : Nat) (x : α) : Option (List α) :=
  if i ≤ l.length then some (List.insertIdx i x l) else none

/-- `Vec::split_off(i)`: the original keeps `[0, i)`, the result is `[i, len)`;
panics when `i > len`. -/
def vsplitOff (l : List α) (i : Nat) : Option (List α × List α) :=
  if i ≤ l.length then some (l.take i, l.drop i) else none

variable {K D : Type}

/-- The key order used by the engine: `IndexItem`'s `Ord` compares the
identity (`hash` then `order`) and ignores satellite data; for plain `u64`
keys `D = Unit` and this is the full order. -/
def keyLt [LinearOrder K] (a b : K × D) : Prop := a.1 < b.1

/-- `slice::binary_search(&item)` of the Rust standard library, by its
contract on slices sorted (strictly, by `keyLt`) as the engine maintains
them: `Ok i` with the unique matching index when an element comparing equal
is present, otherwise `Err i` with the insertion point, which on a strictly
sorted slice is the number of elements less than the probe. -/
def rustBinarySearch [LinearOrder K] (l : List (K × D)) (k : K × D) : Sum Nat Nat :=
  let i := l.countP fun x => decide (x.1 < k.1)
  match l.get? i with
  | some x => if x.1 = k.1 then .inl i else .inr i
  | none => .inr i

/-- `BufNodeHead` (src/tree.rs): self offset, number of live keys, leaf flag
(a `u8`, nonzero meaning leaf). -/
structure BufNodeHead where
  idx : Nat
  len : Nat
  leaf : Nat
deriving DecidableEq, Repr

/-- `BufNode` (src/tree.rs). -/
structure BufNode (K D : Type) where
  head : BufNodeHead
  items : List (K × D)
  next : List Nat
deriving DecidableEq, Repr

/-- `BufGone` (src/tree.rs): a free-list cell overlaid on a freed slot. -/
structure BufGone where
  idx : Nat
  next : Option Nat
deriving DecidableEq, Repr

/-- A record written into the byte buffer: either a node (written by
`write_node`) or a free cell (written by `delete_node`). -/
inductive Cell (K D : Type) where
  | node : BufNode K D → Cell K D
  | free : BufGone → Cell K D
deriving DecidableEq, Repr

/-- `BufTreeHead` (src/tree.rs): the on-disk header at offset 0. -/
structure BufTreeHead where
  size : Nat
  last : Nat
  root : Option Nat
  gone : Option Nat
deriving DecidableEq, Repr

/-- The engine state: the in-memory `self.head` fields (`size`, `last`,
`root`, `gone`), the byte-store contents at record granularity, and the
on-disk copy of the header (`dhead`, written by `write_meta`).  `szV` is
`mem::size_of::<V>()` for the key type.  `junk` is an oracle for the
contents of the uninitialized 24-byte buffer that `read_gone` decodes on
its `n`-th call (it reads zero bytes from the store, see the byte-level
model), and `jc` counts those calls. -/
structure STree (K D : Type) where
  size : Nat
  szV : Nat
  last : Nat
  root : Option Nat
  gone : Option Nat
  store : Nat → Option (Cell K D)
  dhead : BufTreeHead
  junk : Nat → Option Nat
  jc : Nat

/-- The in-memory header of a state. -/
def STree.head (s : STree K D) : BufTreeHead :=
  ⟨s.size, s.last, s.root, s.gone⟩

/-- `write_meta`: persist the in-memory header at offset 0. -/
def write_meta (s : STree K D) : STree K D :=
  { s with dhead := s.head }

/-- `BufTree::new(buffer, size)`: a fresh tree; `last` starts right past the
header (`mem::size_of::<BufTreeHead>() = 48` bytes) and the header is
persisted. -/
def newTree (K D : Type) (size szV : Nat) (junk : Nat → Option Nat) : STree K D :=
  write_meta
    { size := size, szV := szV, last := 48, root := none, gone := none,
      store := fun _ => none, dhead := ⟨size, 48, none, none⟩,
      junk := junk, jc := 0 }

/-- `write_node`: store the node record at its own offset. -/
def write_node (s : STree K D) (n : BufNode K D) : STree K D :=
  { s with store := fun j => if j = n.head.idx then some (.node n) else s.store j }

/-- `read_node` at record granularity: the record stored at `idx` is
returned after the corruption checks of the source (`head.idx` must equal
the requested offset, `head.len` must not exceed the tree size).  Reading
an offset holding no node record decodes garbage at byte level; the runs
this model is used for never do so, and it is mapped to `invalidData`. -/
def read_node (s : STree K D) (idx : Nat) : Except TErr (BufNode K D) :=
  match s.store idx with
  | some (.node n) =>
    if n.head.idx ≠ idx then .error .invalidData
    else if s.size < n.head.len then .error .invalidData
    else .ok n
  | _ => .error .invalidData

/-- Slot width used by `new_idx` when advancing `last`:
`size_of::<BufNodeHead>() + size_of::<V>() * size + u64::BYTES * (size + 1)`. -/
def allocWidth (s : STree K D) : Nat :=
  24 + s.szV * s.size + 8 * (s.size + 1)

/-- Width used by `delete_node`'s end-of-store test:
`size_of::<BufNodeHead>() + size_of::<V>() * (size * 2 + 1)`.
Note this equals `allocWidth` only when `size_of::<V>() = 8`. -/
def deleteWidth (s : STree K D) : Nat :=
  24 + s.szV * (2 * s.size + 1)

/-- `read_gone`: the source reads into a `Vec::with_capacity(24)` whose
length is zero, so zero bytes are read from the store, and the result is
reinterpreted from the uninitialized buffer — modelled by the `junk` oracle
(only the `next` field is ever used by the caller). -/
def read_gone (s : STree K D) (idx : Nat) : Except TErr (BufGone × STree K D) :=
  .ok (⟨idx, s.junk s.jc⟩, { s with jc := s.jc + 1 })

/-- `new_idx`: pop the free-list head if there is one (reading the free
cell with `read_gone`), otherwise carve a fresh slot by advancing `last`. -/
def new_idx (s : STree K D) : Except TErr (Nat × STree K D) :=
  match s.gone with
  | none => .ok (s.last, { s with last := s.last + allocWidth s })
  | some idx => do
    let (g, s1) ← read_gone s idx
    .ok (idx, { s1 with gone := g.next })

/-- `delete_node`: when the freed offset equals `last - deleteWidth`,
decrement `last`; otherwise write a free cell pointing at the current
`gone` head and make the freed offset the new head.  Either way persist
the header. -/
def delete_node (s : STree K D) (idx : Nat) : STree K D :=
  if idx = s.last - deleteWidth s then
    write_meta { s with last := idx }
  else
    write_meta
      { s with
        store := fun j => if j = idx then some (.free ⟨idx, s.gone⟩) else s.store j,
        gone := some idx }

section Engine

variable [LinearOrder K]

/-- The descent loop of `get`. -/
def getLoop (s : STree K D) (item : K × D) : BufNode K D → Nat → Except TErr (Option (K × D))
  | _, 0 => .error .fuel
  | cur, fuel + 1 =>
    match rustBinarySearch cur.items item with
    | .inl idx => do
      let found ← liftOpt (cur.items.get? idx)
      .ok (some found)
    | .inr idx =>
      if cur.head.leaf ≠ 0 then .ok none
      else do
        let nidx ← liftOpt (cur.next.get? idx)
        let nxt ← read_node s nidx
        getLoop s item nxt fuel

/-- `get`: point lookup, returning the stored key (with its satellite
data) that compares equal to the probe. -/
def get (s : STree K D) (item : K × D) (fuel : Nat) : Except TErr (Option (K × D)) :=
  match s.root with
  | none => .ok none
  | some ridx => do
    let cur ← read_node s ridx
    if cur.items.isEmpty then .ok none
    else getLoop s item cur fuel

/-- `contains`. -/
def contains (s : STree K D) (item : K × D) (fuel : Nat) : Except TErr Bool :=
  match get s item fuel with
  | .error e => .error e
  | .ok none => .ok false
  | .ok (some _) => .ok true

/-- The `push`/`swap`/`pop` replacement idiom of `insert_idx`: push the new
item, swap it with the matching slot, pop the displaced item. -/
def swapOut (items : List (K × D)) (idx len : Nat) (item : K × D) :
    Except TErr ((K × D) × List (K × D)) := do
  let items1 := items ++ [item]
  let items2 ← liftOpt (vswap items1 idx len)
  let (nodeItem, items3) ← liftOpt (vpop items2)
  .ok (nodeItem, items3)

/-- The node-splitting computation shared by the root split and the
in-descent child split of `insert_idx`: split the full node `n` at the
median `index = len / 2`, moving items `[index+1, len)` (and, for internal
nodes, children `[index+1, len+1)`) into a fresh right node at `rightIdx`,
and pop the median as separator.  Returns (separator, shrunk left node,
right node). -/
def splitNode (n : BufNode K D) (rightIdx : Nat) :
    Except TErr ((K × D) × BufNode K D × BufNode K D) := do
  let index := n.head.len / 2
  let (keepItems, movedItems) ← liftOpt (vsplitOff n.items (index + 1))
  let (keepNext, movedNext) ←
    if n.head.leaf ≠ 0 then .ok (n.next, [])
    else do
      let (a, b) ← liftOpt (vsplitOff n.next (index + 1))
      .ok (a, b)
  let right : BufNode K D :=
    ⟨⟨rightIdx, n.head.len - index - 1, n.head.leaf⟩, movedItems, movedNext⟩
  let (sep, leftItems) ← liftOpt (vpop keepItems)
  let left : BufNode K D :=
    { n with head := { n.head with len := leftItems.length },
             items := leftItems, next := keepNext }
  .ok (sep, left, right)

/-- The descent loop of `insert_idx` (`while current.head.leaf == 0` plus
the final leaf step).  Every node entered has `len < size`, ensured by the
caller (root handling) and by the in-loop proactive split. -/
def insertLoop (s : STree K D) (cur : BufNode K D) (item : K × D) :
    Nat → Except TErr (Sum Nat (K × D) × STree K D)
  | 0 => .error .fuel
  | fuel + 1 =>
    if cur.head.leaf = 0 then
      match rustBinarySearch cur.items item with
      | .inl idx => do
        let (nodeItem, items3) ← swapOut cur.items idx cur.head.len item
        let cur1 := { cur with items := items3 }
        .ok (.inr nodeItem, write_node s cur1)
      | .inr idx => do
        let nextIdx ← liftOpt (cur.next.get? idx)
        let nextNode ← read_node s nextIdx
        if nextNode.head.len < s.size then
          insertLoop s nextNode item fuel
        else do
          let (rightIdx, s1) ← new_idx s
          let (sep, nextNode1, rightNode) ← splitNode nextNode rightIdx
          let routing : Nat :=
            if item.1 < sep.1 then 0 else if sep.1 < item.1 then 1 else 2
          let toReturn := if routing = 2 then sep else item
          let curNext1 ← liftOpt (vinsert cur.next (idx + 1) rightIdx)
          let curItems1 ← liftOpt (vinsert cur.items idx (if routing = 2 then item else sep))
          let h1 := { cur.head with len := cur.head.len + 1 }
          let cur1 := { cur with head := h1, items := curItems1, next := curNext1 }
          let s2 := write_node (write_node (write_node s1 rightNode) nextNode1) cur1
          if routing = 0 then insertLoop s2 nextNode1 item fuel
          else if routing = 1 then insertLoop s2 rightNode item fuel
          else .ok (.inr toReturn, s2)
    else
      match rustBinarySearch cur.items item with
      | .inl idx => do
        let (nodeItem, items3) ← swapOut cur.items idx cur.head.len item
        let cur1 := { cur with items := items3 }
        .ok (.inr nodeItem, write_node s cur1)
      | .inr idx => do
        let items1 ← liftOpt (vinsert cur.items idx item)
        let h1 := { cur.head with len := cur.head.len + 1 }
        let cur1 := { cur with head := h1, items := items1 }
        .ok (.inl cur.head.idx, write_node s cur1)

/-- `insert_idx`: the upsert.  `Ok (inl leafIdx)` when the key was absent
and was placed into the leaf slot at `leafIdx`; `Ok (inr prev)` when a key
comparing equal was present and `prev` is the displaced key. -/
def insert_idx (s : STree K D) (item : K × D) (fuel : Nat) :
    Except TErr (Sum Nat (K × D) × STree K D) :=
  match s.root with
  | none => do
    let (nidx, s1) ← new_idx s
    let node : BufNode K D := ⟨⟨nidx, 1, 1⟩, [item], []⟩
    let s2 := write_node s1 node
    let s3 := write_meta { s2 with root := some nidx }
    .ok (.inl nidx, s3)
  | some ridx => do
    let cur ← read_node s ridx
    if cur.head.len = s.size then do
      let (rightIdx, s1) ← new_idx s
      let (sep, left, right) ← splitNode cur rightIdx
      let finished := item.1 = sep.1
      let toReturn := if finished then sep else item
      let (rootIdx, s2) ← new_idx s1
      let rootNode : BufNode K D :=
        ⟨⟨rootIdx, 1, 0⟩, [if finished then item else sep], [cur.head.idx, rightIdx]⟩
      let s3 := write_node (write_node (write_node s2 left) right) rootNode
      let s4 := write_meta { s3 with root := some rootIdx }
      if finished then .ok (.inr toReturn, s4)
      else insertLoop s4 rootNode item fuel
    else
      insertLoop s cur item fuel

/-- `insert`: wraps `insert_idx`, forgetting the leaf offset. -/
def insert (s : STree K D) (item : K × D) (fuel : Nat) :
    Except TErr (Option (K × D) × STree K D) :=
  match insert_idx s item fuel with
  | .error e => .error e
  | .ok (.inl _, s1) => .ok (none, s1)
  | .ok (.inr prev, s1) => .ok (some prev, s1)

/-- The bookkeeping block run at the end of each `remove` descent step:

    if item_current {
        if item_push { item_push = false; } else { item_current = false; }
        item_node = Some(current);
    }

returning the new `(item_current, item_push, item_node)`. -/
def trackStep (itemCurrent itemPush : Bool) (cur : BufNode K D)
    (itemNode : Option (BufNode K D)) : Bool × Bool × Option (BufNode K D) :=
  if itemCurrent then
    if itemPush then (true, false, some cur) else (false, itemPush, some cur)
  else (itemCurrent, itemPush, itemNode)

/-- The descent loop of `remove` (`while current.head.leaf == 0`), with the
pending-swap bookkeeping (`item_node`, `item_index`, `item_current`,
`item_push`) threaded, followed by the final leaf step. -/
def removeLoop (s : STree K D) (cur : BufNode K D) (item : K × D)
    (itemNode : Option (BufNode K D)) (itemIndex : Option Nat)
    (itemCurrent itemPush : Bool) :
    Nat → Except TErr (Option (K × D) × STree K D)
  | 0 => .error .fuel
  | fuel + 1 =>
    if cur.head.leaf = 0 then do
      let (itemCurrent, itemIndex, nextIndex) :=
        if itemNode.isSome then (itemCurrent, itemIndex, cur.head.len)
        else
          match rustBinarySearch cur.items item with
          | .inl idx => (true, some idx, idx)
          | .inr idx => (itemCurrent, itemIndex, idx)
      let nextIdx ← liftOpt (cur.next.get? nextIndex)
      let next ← read_node s nextIdx
      if s.size / 2 ≤ next.head.len then
        let (ic, ip, inode) := trackStep itemCurrent itemPush cur itemNode
        removeLoop s next item inode itemIndex ic ip fuel
      else do
        let siblingIndex := if 0 < nextIndex then nextIndex - 1 else 1
        let sibIdx ← liftOpt (cur.next.get? siblingIndex)
        let sibling ← read_node s sibIdx
        if s.size / 2 ≤ sibling.head.len then
          if siblingIndex < nextIndex then do
            let (leftItem, sibItems) ← liftOpt (vpop sibling.items)
            let sh1 := { sibling.head with len := sibling.head.len - 1 }
            let sibling1 := { sibling with head := sh1, items := sibItems }
            let curItems1 ← liftOpt (vswap (cur.items ++ [leftItem]) siblingIndex cur.head.len)
            let (sepItem, curItems2) ← liftOpt (vpop curItems1)
            let cur1 := { cur with items := curItems2 }
            let nextItems1 ← liftOpt (vinsert next.items 0 sepItem)
            let nh1 := { next.head with len := next.head.len + 1 }
            let next1 := { next with head := nh1, items := nextItems1 }
            let (sibling2, next2) ←
              if sibling.head.leaf = 0 then do
                let (leftNext, sibNext1) ← liftOpt (vpop sibling1.next)
                let nextNext1 ← liftOpt (vinsert next1.next 0 leftNext)
                Except.ok ({ sibling1 with next := sibNext1 }, { next1 with next := nextNext1 })
              else Except.ok (sibling1, next1)
            let s1 := write_node (write_node (write_node s sibling2) next2) cur1
            let (ic, ip, inode) := trackStep itemCurrent itemPush cur1 itemNode
            removeLoop s1 next2 item inode itemIndex ic ip fuel
          else do
            let (rightItem, sibItems) ← liftOpt (vremove sibling.items 0)
            let sh1 := { sibling.head with len := sibling.head.len - 1 }
            let sibling1 := { sibling with head := sh1, items := sibItems }
            let curItems1 ← liftOpt (vswap (cur.items ++ [rightItem]) nextIndex cur.head.len)
            let (sepItem, curItems2) ← liftOpt (vpop curItems1)
            let cur1 := { cur with items := curItems2 }
            let nextItems1 := next.items ++ [sepItem]
            let (itemPush, itemIndex) :=
              if itemCurrent then (true, some next.head.len) else (itemPush, itemIndex)
            let nh1 := { next.head with len := next.head.len + 1 }
            let next1 := { next with head := nh1, items := nextItems1 }
            let (sibling2, next2) ←
              if sibling.head.leaf = 0 then do
                let (rightNext, sibNext1) ← liftOpt (vremove sibling1.next 0)
                Except.ok ({ sibling1 with next := sibNext1 },
                           { next1 with next := next1.next ++ [rightNext] })
              else Except.ok (sibling1, next1)
            let s1 := write_node (write_node (write_node s sibling2) next2) cur1
            let (ic, ip, inode) := trackStep itemCurrent itemPush cur1 itemNode
            removeLoop s1 next2 item inode itemIndex ic ip fuel
        else
          if siblingIndex < nextIndex then do
            let (sepItem, curItems1) ← liftOpt (vremove cur.items siblingIndex)
            let (_, curNext1) ← liftOpt (vremove cur.next nextIndex)
            let ch1 := { cur.head with len := cur.head.len - 1 }
            let cur1 := { cur with head := ch1, items := curItems1, next := curNext1 }
            let sibItems1 := (sibling.items ++ [sepItem]) ++ next.items
            let sibNext1 := sibling.next ++ next.next
            let sh1 := { sibling.head with len := sibItems1.length }
            let sibling1 := { sibling with head := sh1, items := sibItems1, next := sibNext1 }
            let s1 :=
              if cur1.head.len = 0 then
                delete_node (write_meta { s with root := some sibling.head.idx }) cur.head.idx
              else write_node s cur1
            let s2 := write_node (delete_node s1 next.head.idx) sibling1
            let (ic, ip, inode) := trackStep itemCurrent itemPush cur1 itemNode
            removeLoop s2 sibling1 item inode itemIndex ic ip fuel
          else do
            let (sepItem, curItems1) ← liftOpt (vremove cur.items nextIndex)
            let (_, curNext1) ← liftOpt (vremove cur.next siblingIndex)
            let ch1 := { cur.head with len := cur.head.len - 1 }
            let cur1 := { cur with head := ch1, items := curItems1, next := curNext1 }
            let nextItems1 := next.items ++ [sepItem]
            let (itemPush, itemIndex) :=
              if itemCurrent then (true, some next.head.len) else (itemPush, itemIndex)
            let nextItems2 := nextItems1 ++ sibling.items
            let nextNext1 := next.next ++ sibling.next
            let nh1 := { next.head with len := nextItems2.length }
            let next1 := { next with head := nh1, items := nextItems2, next := nextNext1 }
            let s1 :=
              if cur1.head.len = 0 then
                delete_node (write_meta { s with root := some next.head.idx }) cur.head.idx
              else write_node s cur1
            let s2 := write_node (delete_node s1 sibling.head.idx) next1
            let (ic, ip, inode) := trackStep itemCurrent itemPush cur1 itemNode
            removeLoop s2 next1 item inode itemIndex ic ip fuel
    else
      match itemNode with
      | none =>
        match rustBinarySearch cur.items item with
        | .inl idx => do
          let (nodeItem, items1) ← liftOpt (vremove cur.items idx)
          let ch1 := { cur.head with len := cur.head.len - 1 }
          let cur1 := { cur with head := ch1, items := items1 }
          .ok (some nodeItem, write_node s cur1)
        | .inr _ => .ok (none, s)
      | some node => do
        let (sep, curItems1) ← liftOpt (vpop cur.items)
        let ch1 := { cur.head with len := cur.head.len - 1 }
        let cur1 := { cur with head := ch1, items := curItems1 }
        let ii ← liftOpt itemIndex
        let nodeItems1 ← liftOpt (vswap (node.items ++ [sep]) ii node.head.len)
        let (nodeItem, nodeItems2) ← liftOpt (vpop nodeItems1)
        let node1 := { node with items := nodeItems2 }
        let s1 := write_node (write_node s node1) cur1
        .ok (some nodeItem, s1)

/-- `remove`: delete the key comparing equal to the probe, returning the
stored key.  Rebalancing (rotate or merge) happens on the way down; a match
found at an internal node records a pending swap resolved at the leaf. -/
def remove (s : STree K D) (item : K × D) (fuel : Nat) :
    Except TErr (Option (K × D) × STree K D) :=
  match s.root with
  | none => .ok (none, s)
  | some ridx => do
    let cur ← read_node s ridx
    if cur.items.isEmpty then .ok (none, s)
    else removeLoop s cur item none none false false fuel

end Engine

/-!
### Byte-level model of the record codec (src/tree.rs)

`write_node`, `read_node` and `read_gone` move raw bytes through the
`io::Read + io::Write + io::Seek` buffer.  Here the buffer is a total
function from byte offsets to bytes together with a cursor; `seek` sets the
cursor, reads and writes advance it.  Structs are laid out as rustc lays
them out: `BufNodeHead` is 24 bytes (`u64` idx, `usize` len, `u8` leaf plus
padding), a `u64` is 8 bytes, `Option<u64>` is 16 bytes (tag then value),
`BufGone` is 24 bytes.  Keys are written through a width-`szV` codec, the
counterpart of reinterpreting `&[V]` as raw bytes.
-/

namespace Bytes

/-- A byte store: contents and cursor. -/
structure BStore where
  data : Nat → Nat
  pos : Nat

/-- Overlay `bs` on `d` starting at `p`. -/
def writeBytes (d : Nat → Nat) (p : Nat) (bs : List Nat) : Nat → Nat :=
  fun j => if p ≤ j ∧ j < p + bs.length then bs.getD (j - p) 0 else d j

/-- Read `n` bytes starting at `p`. -/
def readBytes (d : Nat → Nat) (p n : Nat) : List Nat :=
  (List.range n).map fun i => d (p + i)

/-- `Seek::seek(SeekFrom::Start(p))`. -/
def bseek (b : BStore) (p : Nat) : BStore := { b with pos := p }

/-- `Write::write_all`: write at the cursor, advancing it. -/
def bwrite (b : BStore) (bs : List Nat) : BStore :=
  ⟨writeBytes b.data b.pos bs, b.pos + bs.length⟩

/-- `Read::read` into a buffer of length `n`: the store is total, so the
buffer is always filled. -/
def bread (b : BStore) (n : Nat) : List Nat × BStore :=
  (readBytes b.data b.pos n, { b with pos := b.pos + n })

/-- Little-endian byte encoding, `n` bytes wide. -/
def encLE : Nat → Nat → List Nat
  | 0, _ => []
  | n + 1, x => x % 256 :: encLE n (x / 256)

/-- Little-endian byte decoding (each cell contributes its low 8 bits). -/
def decLE : List Nat → Nat
  | [] => 0
  | b :: bs => b % 256 + 256 * decLE bs

/-- Split a list into chunks of `k` (structural fuel on the length so the
definition reduces by `rfl`). -/
def chunksAux (k : Nat) : Nat → List α → List (List α)
  | _, [] => []
  | 0, _ :: _ => []
  | fuel + 1, x :: xs => (x :: xs).take k :: chunksAux k fuel ((x :: xs).drop k)

/-- All `k`-chunks of a list. -/
def chunksOf (k : Nat) (l : List α) : List (List α) := chunksAux k l.length l

/-- A key codec: `width` is `mem::size_of::<V>()`; `enc`/`dec` are the raw
reinterpretation of a key as bytes and back. -/
structure KeyCodec (V : Type) where
  width : Nat
  enc : V → List Nat
  dec : List Nat → V

/-- A node as the byte layer sees it (key type `V` unsplit). -/
structure RawNode (V : Type) where
  head : BufNodeHead
  items : List V
  next : List Nat
deriving DecidableEq, Repr

/-- `BufNodeHead` as 24 bytes: idx (8), len (8), leaf (1) plus 7 bytes of
padding. -/
def encNodeHead (h : BufNodeHead) : List Nat :=
  encLE 8 h.idx ++ encLE 8 h.len ++ (h.leaf % 256 :: List.replicate 7 0)

/-- Decode a 24-byte `BufNodeHead`. -/
def decNodeHead (bs : List Nat) : BufNodeHead :=
  ⟨decLE (bs.take 8), decLE ((bs.drop 8).take 8), (bs.getD 16 0) % 256⟩

/-- `BufGone` as 24 bytes: idx (8), then `Option<u64>` as tag (8) and
value (8). -/
def encGone (g : BufGone) : List Nat :=
  encLE 8 g.idx ++
    (match g.next with
     | none => encLE 8 0 ++ encLE 8 0
     | some v => encLE 8 1 ++ encLE 8 v)

/-- Decode a 24-byte `BufGone`. -/
def decGone (bs : List Nat) : BufGone :=
  ⟨decLE (bs.take 8),
   if decLE ((bs.drop 8).take 8) = 0 then none else some (decLE ((bs.drop 16).take 8))⟩

/-- `write_node` (src/tree.rs): seek to the node's own offset, write the
24-byte header, write the `len` keys as raw bytes, and, only when the
child-offset vector is nonempty, write the `len + 1` child offsets. -/
def bwrite_node (c : KeyCodec V) (b : BStore) (n : RawNode V) : BStore :=
  let b1 := bseek b n.head.idx
  let b2 := bwrite b1 (encNodeHead n.head)
  let b3 := bwrite b2 (n.items.flatMap c.enc)
  if 0 < n.next.length then bwrite b3 (n.next.flatMap (encLE 8)) else b3

/-- `read_node` (src/tree.rs): seek to `idx`, read and decode the header,
fail with `InvalidData` when the stored `idx` differs from the requested
one or the stored `len` exceeds the tree size; otherwise read the key
region — `head.len` keys' worth for an internal node (`leaf == 0`),
a full `size` keys' worth for a leaf — keep the first `head.len` decoded
keys, and for an internal node read the `head.len + 1` child offsets from
the cursor. -/
def bread_node (c : KeyCodec V) (size : Nat) (b : BStore) (idx : Nat) :
    Except TErr (RawNode V × BStore) :=
  let b1 := bseek b idx
  let (hb, b2) := bread b1 24
  let head := decNodeHead hb
  if head.idx ≠ idx then .error .invalidData
  else if size < head.len then .error .invalidData
  else
    let vecLen := (if head.leaf = 0 then head.len else size) * c.width
    let (ib, b3) := bread b2 vecLen
    let items := ((chunksOf c.width ib).take head.len).map c.dec
    if head.leaf = 0 then
      let (nb, b4) := bread b3 ((head.len + 1) * 8)
      .ok (⟨head, items, (chunksOf 8 nb).map decLE⟩, b4)
    else
      .ok (⟨head, items, []⟩, b3)

/-- `read_gone` (src/tree.rs): seek to `idx`, then read into
`Vec::with_capacity(24)` — whose length is zero, so zero bytes are read —
and reinterpret the buffer's uninitialized contents (`junk`) as a
`BufGone`.  The stored free cell is never consulted. -/
def bread_gone (b : BStore) (junk : List Nat) (idx : Nat) : BufGone × BStore :=
  let b1 := bseek b idx
  let (_, b2) := bread b1 0
  (decGone junk, b2)

/-- Modelled from the spec (§4.4): a reader that, quoting, always seeks
"past a full slot's worth for internal nodes to position the cursor for the
child-offset read; for leaves they skip the child region entirely" — that
is, the key region consumed before the child-offset read is `size` keys
wide for an internal node and `len` keys wide for a leaf.  Identical to
`bread_node` except for that width.  Used to compare the spec's description
of the reader against the translated one. -/
def bread_node_spec (c : KeyCodec V) (size : Nat) (b : BStore) (idx : Nat) :
    Except TErr (RawNode V × BStore) :=
  let b1 := bseek b idx
  let (hb, b2) := bread b1 24
  let head := decNodeHead hb
  if head.idx ≠ idx then .error .invalidData
  else if size < head.len then .error .invalidData
  else
    let vecLen := (if head.leaf = 0 then size else head.len) * c.width
    let (ib, b3) := bread b2 vecLen
    let items := ((chunksOf c.width ib).take head.len).map c.dec
    if head.leaf = 0 then
      let (nb, b4) := bread b3 ((head.len + 1) * 8)
      .ok (⟨head, items, (chunksOf 8 nb).map decLE⟩, b4)
    else
      .ok (⟨head, items, []⟩, b3)

/-- The `u64` key codec of the unit tests: width 8, raw little-endian. -/
def u64Codec : KeyCodec Nat := ⟨8, encLE 8, decLE⟩

/-- A byte store holding one internal node with one key, written by the
translated `write_node` over a zeroed buffer: node at offset 100, `len 1`,
key `5`, children `[7, 9]`. -/
def c8store : BStore :=
  bwrite_node u64Codec ⟨fun _ => 0, 0⟩ ⟨⟨100, 1, 0⟩, [5], [7, 9]⟩

/-- A byte store holding, at offset 48, a free cell written with
`next = some 4242` (the bytes `delete_node` writes for it). -/
def c6store : BStore :=
  ⟨writeBytes (fun _ => 0) 48 (encGone ⟨48, some 4242⟩), 0⟩

end Bytes

/-!
### Concrete engine states for the claims

All of these use `u64` keys (`K = Nat`, `D = Unit`, `szV = 8`) unless the
state is about the allocator geometry of `IndexItem` keys.
-/

/-- Run a list of inserts through the engine, collecting the results. -/
def insRun (s : STree Nat Unit) :
    List Nat → Except TErr (List (Option (Nat × Unit)) × STree Nat Unit)
  | [] => .ok ([], s)
  | k :: ks => do
    let (r, s1) ← insert s (k, ()) 20
    let (rs, s2) ← insRun s1 ks
    .ok (r :: rs, s2)

/-- The order-4 tree reached from a fresh tree by
`insert 10, 20, 30, 40, 50; remove 20; remove 50` (checking the removes
returned the removed keys): root `[30]` at offset 240 over the leaf
children `[10]` at 48 and `[40]` at 144. -/
def c2run : Except TErr (STree Nat Unit) := do
  let (_, s1) ← insRun (newTree Nat Unit 4 8 fun _ => none) [10, 20, 30, 40, 50]
  let (r2, s2) ← remove s1 (20, ()) 20
  let (r3, s3) ← remove s2 (50, ()) 20
  if r2 = some (20, ()) ∧ r3 = some (50, ()) then .ok s3 else .error .invalidData

/-- The state delivered by `c2run`. -/
def c2s : STree Nat Unit := c2run.toOption.getD (newTree Nat Unit 4 8 fun _ => none)

/-- A state with the slot geometry of the real line index: key width
`size_of::<IndexItem>() = 88` bytes, order 6, so a slot is
`24 + 88 * 6 + 8 * 7 = 608` bytes wide; two slots allocated
(`last = 48 + 2 * 608 = 1264`), the free list empty. -/
def c5s : STree Nat Unit :=
  { size := 6, szV := 88, last := 1264, root := none, gone := none,
    store := fun _ => none, dhead := ⟨6, 1264, none, none⟩,
    junk := fun _ => none, jc := 0 }

/-- The same geometry with the 8-byte keys of the unit tests: slot width
`24 + 8 * 6 + 8 * 7 = 128`, one slot allocated (`last = 176`). -/
def c5s8 : STree Nat Unit :=
  { size := 6, szV := 8, last := 176, root := none, gone := none,
    store := fun _ => none, dhead := ⟨6, 176, none, none⟩,
    junk := fun _ => none, jc := 0 }

/-- A well-formed order-3 state (u64 keys, slot width 80): a full root leaf
`[10, 20, 30]` at 48, a freed slot at 128 holding a properly written free
cell, `last = 208`, free list head `some 128` — and uninitialized memory
whose `BufGone.next` field happens to decode to `some 48`. -/
def c1s : STree Nat Unit :=
  { size := 3, szV := 8, last := 208, root := some 48, gone := some 128,
    store := fun j =>
      if j = 48 then some (.node ⟨⟨48, 3, 1⟩, [(10, ()), (20, ()), (30, ())], []⟩)
      else if j = 128 then some (.free ⟨128, none⟩)
      else none,
    dhead := ⟨3, 208, some 48, some 128⟩,
    junk := fun _ => some 48, jc := 0 }

/-- The order-3 tree with the full root leaf `[10, 20, 30]` (offset 48,
`last = 128`), reached by three inserts from a fresh tree. -/
def c4pre : STree Nat Unit :=
  ((insRun (newTree Nat Unit 3 8 fun _ => none) [10, 20, 30]).toOption.map Prod.snd).getD
    (newTree Nat Unit 3 8 fun _ => none)

/-- The order-4 tree built by inserting 50, 40, 30, 20, 10 from a fresh
tree: the pre-descent root split leaves the right child `[50]` at 144 with
a single key. -/
def c3s : STree Nat Unit :=
  ((insRun (newTree Nat Unit 4 8 fun _ => none) [50, 40, 30, 20, 10]).toOption.map
    Prod.snd).getD (newTree Nat Unit 4 8 fun _ => none)

/-- An order-6 tree holding the single key 1 in its root leaf at 48
(`last = 176`), as reached by one insert from a fresh tree. -/
def c10s : STree Nat Unit :=
  { size := 6, szV := 8, last := 176, root := some 48, gone := none,
    store := fun j => if j = 48 then some (.node ⟨⟨48, 1, 1⟩, [(1, ())], []⟩) else none,
    dhead := ⟨6, 176, some 48, none⟩,
    junk := fun _ => none, jc := 0 }

/-!
### The line-index builder (src/main.rs)

`IndexItem` is `{ hash: u64, order: usize, count: usize,
places: [IndexPlace; 4] }`; its `Ord`/`PartialEq` compare `(hash, order)`
only, `count` and `places` are satellite data.  `Logs::add_path` feeds one
`IndexItem` per line of the indexed file into a `BufTree` of order
`FILE_TREE_WIDTH = 6`; lines enter as their 64-bit hash, which is all the
index ever consults.
-/

/-- The identity part of `IndexItem`: `(hash, order)`, ordered
lexicographically exactly as `IndexItem`'s `Ord` instance compares. -/
structure HKey where
  hash : Nat
  ord : Nat
deriving DecidableEq, Repr

instance : LinearOrder HKey :=
  LinearOrder.lift' (fun k => toLex (k.hash, k.ord)) fun a b hab => by
    cases a
    cases b
    simp only [toLex_inj, Prod.mk.injEq] at hab
    simp [hab.1, hab.2]

theorem HKey.lt_iff (a b : HKey) :
    a < b ↔ a.hash < b.hash ∨ (a.hash = b.hash ∧ a.ord < b.ord) := by
  show toLex (a.hash, a.ord) < toLex (b.hash, b.ord) ↔ _
  rw [Prod.Lex.lt_iff]

/-- `IndexItem`'s satellite data: `count` and the four `places`
(`IndexPlace { node: usize, offset: isize }`). -/
abbrev LineD : Type := Nat × List (Nat × Int)

/-- The tree `add_path` builds: order `FILE_TREE_WIDTH = 6`, key width
`size_of::<IndexItem>() = 88`. -/
abbrev LTree : Type := STree HKey LineD

/-- The upsert chain of `add_path` (main.rs:632-653): repeatedly `get` the
record at `(hash, order)`; a full record (`count >= INDEX_PLACES_SIZE = 4`)
bumps `order` and retries; a record with room is adopted; no record means
the fresh item is kept. -/
def mergeChain (t : LTree) (item : HKey × LineD) : Nat → Except TErr (HKey × LineD)
  | 0 => .error .fuel
  | fuel + 1 => do
    let r ← get t item (18 + 1)
    match r with
    | none => .ok item
    | some treeItem =>
      if 4 ≤ treeItem.2.1 then
        mergeChain t (⟨item.1.hash, item.1.ord + 1⟩, item.2) fuel
      else .ok treeItem

/-- One iteration of `add_path`'s line loop (main.rs:607-673): build the
fresh item for the line's hash (`order = 0`, `count = 0`, zeroed places),
run the upsert chain, record the line's place at index `count` (a Rust
array write, out of bounds if `count` were 4 or more), bump `count` and
insert. -/
def addLine (t : LTree) (h counter : Nat) : Except TErr LTree := do
  let item0 : HKey × LineD := (⟨h, 0⟩, (0, List.replicate 4 (0, 0)))
  let item ← mergeChain t item0 (19 + 1)
  if item.2.1 < 4 then
    let item1 : HKey × LineD :=
      (item.1, (item.2.1 + 1, item.2.2.set item.2.1 (counter, 0)))
    let (_, t1) ← insert t item1 (18 + 1)
    .ok t1
  else .error .panicked

/-- `add_path`'s whole line loop, threading the line counter. -/
def addLines (t : LTree) : List Nat → Nat → Except TErr (LTree × Nat)
  | [], counter => .ok (t, counter)
  | h :: hs, counter => do
    let t1 ← addLine t h counter
    addLines t1 hs (counter + 1)

/-- Build the line index from the hashes of a file's lines, starting from
the fresh tree `BufTree::new(dest, FILE_TREE_WIDTH)` as `add_path` does. -/
def buildIndex (hashes : List Nat) : Except TErr (LTree × Nat) :=
  addLines (newTree HKey LineD 6 88 fun _ => none) hashes 0

/-!
### Structural well-formedness of a stored subtree

`Sub s m b idx d os` says offset `idx` roots a well-formed subtree in the
store of `s`: nodes carry their own offset, leaves have flag 1 and no
children, internal nodes flag 0 and `len + 1` children, every leaf sits at
depth `d`, and every node holds between `⌈m/2⌉ - 1` (or 1 for the root,
flag `b = true`) and `m` keys.  `os` is the preorder list of the subtree's
slot offsets.  `Subs` is the same for a list of sibling subtrees. -/

mutual
inductive Sub (s : STree K D) (m : Nat) : Bool → Nat → Nat → List Nat → Prop where
  | lf : ∀ (b : Bool) (idx : Nat) (items : List (K × D)),
      s.store idx = some (.node ⟨⟨idx, items.length, 1⟩, items, []⟩) →
      (if b then 1 else (m + 1) / 2 - 1) ≤ items.length →
      items.length ≤ m →
      Sub s m b idx 0 [idx]
  | nd : ∀ (b : Bool) (idx : Nat) (items : List (K × D)) (ks : List Nat) (d : Nat)
      (os : List Nat),
      s.store idx = some (.node ⟨⟨idx, items.length, 0⟩, items, ks⟩) →
      ks.length = items.length + 1 →
      (if b then 1 else (m + 1) / 2 - 1) ≤ items.length →
      items.length ≤ m →
      Subs s m ks d os →
      Sub s m b idx (d + 1) (idx :: os)

inductive Subs (s : STree K D) (m : Nat) : List Nat → Nat → List Nat → Prop where
  | nil : ∀ d, Subs s m [] d []
  | cons : ∀ (k : Nat) (ks : List Nat) (d : Nat) (os1 os2 : List Nat),
      Sub s m false k d os1 →
      Subs s m ks d os2 →
      Subs s m (k :: ks) d (os1 ++ os2)
end

/-- The whole-tree occupancy/uniform-depth invariant maintained by
insert/get sequences: amended occupancy bounds (`1 ≤ len ≤ m` at the root,
`⌈m/2⌉ - 1 ≤ len ≤ m` elsewhere, carried by `Sub`), all leaves at one
depth, a pristine free list, and all record offsets distinct and below
`last`. -/
def TreeInv (s : STree K D) (m : Nat) : Prop :=
  s.size = m ∧ s.gone = none ∧
  (s.root = none ∨ ∃ r d os, s.root = some r ∧ Sub s m true r d os ∧
    os.Nodup ∧ (∀ o ∈ os, o < s.last))

/-- One operation of the claim's sequences: `inl` is `insert`, `inr` is
`get`, which takes `&self` and leaves the state unchanged (`remove` is
excluded by the amendment).  The insert fuel `last + 2` strictly dominates
the tree depth, so the fuelled model loop equals the source's unbounded
one on these runs. -/
def runOp [LinearOrder K] (s : STree K D) (op : Sum (K × D) (K × D)) :
    Except TErr (STree K D) :=
  match op with
  | .inl item =>
    match insert s item (s.last + 2) with
    | .ok (_, s1) => .ok s1
    | .error e => .error e
  | .inr _ => .ok s

/-- Run a sequence of insert/get operations. -/
def runOps [LinearOrder K] (s : STree K D) :
    List (Sum (K × D) (K × D)) → Except TErr (STree K D)
  | [] => .ok s
  | op :: rest =>
    match runOp s op with
    | .ok s1 => runOps s1 rest
    | .error e => .error e

end Half2

namespace Half2

/-!
## Byte-layer lemmas
-/

namespace Bytes

theorem readBytes_length (d : Nat → Nat) (p n : Nat) : (readBytes d p n).length = n := by
  simp [readBytes]

theorem readBytes_writeBytes_self (d : Nat → Nat) (p : Nat) (bs : List Nat) :
    readBytes (writeBytes d p bs) p bs.length = bs := by
  apply List.ext_get
  · simp [readBytes]
  · intro i h1 h2
    simp only [readBytes, writeBytes, List.get_eq_getElem, List.getElem_map,
      List.getElem_range]
    rw [if_pos (by omega)]
    have : p + i - p = i := by omega
    rw [this, List.getD_eq_getElem?_getD, List.getElem?_eq_getElem h2]
    rfl

theorem readBytes_writeBytes_of_right (d : Nat → Nat) (p q n : Nat) (bs : List Nat)
    (h : q + n ≤ p) : readBytes (writeBytes d p bs) q n = readBytes d q n := by
  simp only [readBytes, writeBytes]
  apply List.map_congr_left
  intro i hi
  simp only [List.mem_range] at hi
  rw [if_neg (by omega)]

theorem readBytes_writeBytes_of_left (d : Nat → Nat) (p q n : Nat) (bs : List Nat)
    (h : p + bs.length ≤ q) : readBytes (writeBytes d p bs) q n = readBytes d q n := by
  simp only [readBytes, writeBytes]
  apply List.map_congr_left
  intro i hi
  rw [if_neg (by omega)]

theorem readBytes_add (d : Nat → Nat) (p m n : Nat) :
    readBytes d p (m + n) = readBytes d p m ++ readBytes d (p + m) n := by
  simp only [readBytes, List.range_add, List.map_append, List.map_map]
  congr 1
  apply List.map_congr_left
  intro i _
  simp only [Function.comp_apply]
  congr 1
  omega

theorem encLE_length (n x : Nat) : (encLE n x).length = n := by
  induction n generalizing x with
  | zero => rfl
  | succ k ih => simp [encLE, ih]

theorem decLE_encLE (n x : Nat) : decLE (encLE n x) = x % 256 ^ n := by
  induction n generalizing x with
  | zero => simp [encLE, decLE, Nat.mod_one]
  | succ k ih =>
    simp only [encLE, decLE, ih]
    rw [pow_succ, show (256 : Nat) ^ k * 256 = 256 * 256 ^ k by ring, Nat.mod_mul]
    omega

theorem decLE_encLE_of_lt (n x : Nat) (h : x < 256 ^ n) : decLE (encLE n x) = x := by
  rw [decLE_encLE, Nat.mod_eq_of_lt h]

theorem decNodeHead_encNodeHead (h : BufNodeHead) (hidx : h.idx < 256 ^ 8)
    (hlen : h.len < 256 ^ 8) (hleaf : h.leaf < 256) :
    decNodeHead (encNodeHead h) = h := by
  have l1 : (encLE 8 h.idx).length = 8 := encLE_length 8 h.idx
  have l2 : (encLE 8 h.len).length = 8 := encLE_length 8 h.len
  simp only [decNodeHead, encNodeHead]
  have t1 : (encLE 8 h.idx ++ (encLE 8 h.len ++ (h.leaf % 256 :: List.replicate 7 0))).take 8 =
      encLE 8 h.idx := List.take_left' l1
  have t2 : (encLE 8 h.idx ++ (encLE 8 h.len ++ (h.leaf % 256 :: List.replicate 7 0))).drop 8 =
      encLE 8 h.len ++ (h.leaf % 256 :: List.replicate 7 0) := List.drop_left' l1
  have t3 : (encLE 8 h.len ++ (h.leaf % 256 :: List.replicate 7 0)).take 8 = encLE 8 h.len :=
    List.take_left' l2
  rw [List.append_assoc, t1, t2, t3]
  have t4 : (encLE 8 h.idx ++ encLE 8 h.len ++ (h.leaf % 256 :: List.replicate 7 0)).getD 16 0 =
      h.leaf % 256 := by
    rw [List.getD_append_right _ _ _ _ (by simp [l1, l2])]
    simp [l1, l2]
  rw [← List.append_assoc, t4]
  rw [decLE_encLE_of_lt _ _ hidx, decLE_encLE_of_lt _ _ hlen]
  rw [Nat.mod_eq_of_lt hleaf, Nat.mod_eq_of_lt hleaf]

/-- The first `l.length` chunks of `l.flatMap f ++ r` are the encodings of
`l`, when every encoding has the chunk width. -/
theorem chunksAux_flatMap_take (w : Nat) (hw : 0 < w) (f : α → List β) (l : List α)
    (hf : ∀ x ∈ l, (f x).length = w) (r : List β) (fuel : Nat)
    (hfuel : (l.flatMap f ++ r).length ≤ fuel) :
    (chunksAux w fuel (l.flatMap f ++ r)).take l.length = l.map f := by
  induction l generalizing r fuel with
  | nil => simp
  | cons x xs ih =>
    have hx : (f x).length = w := hf x (List.mem_cons_self x xs)
    have hxne : f x ≠ [] := by
      intro hno
      rw [hno] at hx
      simp at hx
      omega
    obtain ⟨a, as, ha⟩ := List.exists_cons_of_ne_nil hxne
    have hlist : (x :: xs).flatMap f ++ r = a :: (as ++ (xs.flatMap f ++ r)) := by
      simp [List.flatMap_cons, ha, List.append_assoc]
    match fuel with
    | 0 =>
      exfalso
      rw [hlist] at hfuel
      simp at hfuel
    | fuel + 1 =>
      rw [hlist]
      show ((a :: (as ++ (xs.flatMap f ++ r))).take w ::
        chunksAux w fuel ((a :: (as ++ (xs.flatMap f ++ r))).drop w)).take (xs.length + 1) =
        f x :: xs.map f
      have htk : (a :: (as ++ (xs.flatMap f ++ r))).take w = f x := by
        have : a :: (as ++ (xs.flatMap f ++ r)) = f x ++ (xs.flatMap f ++ r) := by
          simp [ha]
        rw [this, ← hx, List.take_left]
      have hdr : (a :: (as ++ (xs.flatMap f ++ r))).drop w = xs.flatMap f ++ r := by
        have : a :: (as ++ (xs.flatMap f ++ r)) = f x ++ (xs.flatMap f ++ r) := by
          simp [ha]
        rw [this, ← hx, List.drop_left]
      rw [htk, hdr, List.take_succ_cons]
      congr 1
      apply ih
      · intro y hy
        exact hf y (List.mem_cons_of_mem x hy)
      · rw [hlist] at hfuel
        simp only [List.length_cons, List.length_append] at hfuel
        simp only [List.length_append]
        omega

theorem chunksOf_flatMap_take (w : Nat) (hw : 0 < w) (f : α → List β) (l : List α)
    (hf : ∀ x ∈ l, (f x).length = w) (r : List β) :
    (chunksOf w (l.flatMap f ++ r)).take l.length = l.map f :=
  chunksAux_flatMap_take w hw f l hf r _ le_rfl

theorem encNodeHead_length (h : BufNodeHead) : (encNodeHead h).length = 24 := by
  simp [encNodeHead, encLE_length]

theorem flatMap_length_const (f : α → List β) (l : List α) (w : Nat)
    (hf : ∀ x ∈ l, (f x).length = w) : (l.flatMap f).length = l.length * w := by
  induction l with
  | nil => simp
  | cons x xs ih =>
    simp only [List.flatMap_cons, List.length_append, List.length_cons]
    rw [hf x (List.mem_cons_self x xs), ih fun y hy => hf y (List.mem_cons_of_mem x hy)]
    ring

theorem chunksAux_flatMap (w : Nat) (hw : 0 < w) (f : α → List β) (l : List α)
    (hf : ∀ x ∈ l, (f x).length = w) (fuel : Nat)
    (hfuel : (l.flatMap f).length ≤ fuel) :
    chunksAux w fuel (l.flatMap f) = l.map f := by
  induction l generalizing fuel with
  | nil => simp [chunksAux]
  | cons x xs ih =>
    have hx : (f x).length = w := hf x (List.mem_cons_self x xs)
    have hxne : f x ≠ [] := by
      intro hno
      rw [hno] at hx
      simp at hx
      omega
    obtain ⟨a, as, ha⟩ := List.exists_cons_of_ne_nil hxne
    have hlist : (x :: xs).flatMap f = a :: (as ++ xs.flatMap f) := by
      simp [List.flatMap_cons, ha]
    match fuel with
    | 0 =>
      exfalso
      rw [hlist] at hfuel
      simp at hfuel
    | fuel + 1 =>
      rw [hlist]
      show (a :: (as ++ xs.flatMap f)).take w ::
          chunksAux w fuel ((a :: (as ++ xs.flatMap f)).drop w) = f x :: xs.map f
      have hcons : a :: (as ++ xs.flatMap f) = f x ++ xs.flatMap f := by simp [ha]
      have htk : (a :: (as ++ xs.flatMap f)).take w = f x := by
        rw [hcons, ← hx, List.take_left]
      have hdr : (a :: (as ++ xs.flatMap f)).drop w = xs.flatMap f := by
        rw [hcons, ← hx, List.drop_left]
      rw [htk, hdr]
      congr 1
      apply ih (fun y hy => hf y (List.mem_cons_of_mem x hy))
      rw [hlist] at hfuel
      simp only [List.length_cons, List.length_append] at hfuel
      omega

theorem chunksOf_flatMap (w : Nat) (hw : 0 < w) (f : α → List β) (l : List α)
    (hf : ∀ x ∈ l, (f x).length = w) :
    chunksOf w (l.flatMap f) = l.map f :=
  chunksAux_flatMap w hw f l hf _ le_rfl

/-- `bread_node` written out: header decode, the two corruption checks, key
region read (`len` keys for internal, `size` keys for leaf), then the child
offsets for internal nodes. -/
theorem bread_node_expand (c : KeyCodec V) (size : Nat) (b : BStore) (idx : Nat) :
    bread_node c size b idx =
      (let hd := decNodeHead (readBytes b.data idx 24)
       if hd.idx ≠ idx then .error .invalidData
       else if size < hd.len then .error .invalidData
       else
         let vecLen := (if hd.leaf = 0 then hd.len else size) * c.width
         let items := ((chunksOf c.width (readBytes b.data (idx + 24) vecLen)).take hd.len).map c.dec
         if hd.leaf = 0 then
           .ok (⟨hd, items,
                  (chunksOf 8 (readBytes b.data (idx + 24 + vecLen) ((hd.len + 1) * 8))).map decLE⟩,
                ⟨b.data, idx + 24 + vecLen + (hd.len + 1) * 8⟩)
         else
           .ok (⟨hd, items, []⟩, ⟨b.data, idx + 24 + vecLen⟩)) := rfl

end Bytes

/-!
## Engine helper lemmas
-/

theorem rustBinarySearch_not_mem [LinearOrder K] (l : List (K × D)) (k : K × D)
    (h : ∀ x ∈ l, x.1 ≠ k.1) :
    rustBinarySearch l k = .inr (l.countP fun x => decide (x.1 < k.1)) := by
  unfold rustBinarySearch
  cases hg : l.get? (l.countP fun x => decide (x.1 < k.1)) with
  | none => simp only [hg]
  | some x =>
    simp only [hg]
    rw [if_neg (h x (List.get?_mem hg))]

theorem countP_insertIdx (p : α → Bool) (l : List α) (i : Nat) (a : α) (h : i ≤ l.length) :
    (List.insertIdx i a l).countP p = l.countP p + (if p a then 1 else 0) := by
  induction l generalizing i with
  | nil =>
    match i with
    | 0 => simp [List.insertIdx_zero, List.countP_cons]
  | cons x xs ih =>
    match i with
    | 0 => simp [List.insertIdx_zero, List.countP_cons]
    | i + 1 =>
      rw [List.insertIdx_succ_cons, List.countP_cons, List.countP_cons,
        ih i (by simpa using h)]
      omega

theorem get?_insertIdx_self (l : List α) (i : Nat) (a : α) (h : i ≤ l.length) :
    (List.insertIdx i a l).get? i = some a := by
  have h1 : i < (List.insertIdx i a l).length := by
    rw [List.length_insertIdx _ _ h]
    omega
  rw [List.get?_eq_getElem?, List.getElem?_eq_getElem h1,
    List.getElem_insertIdx_self l a i h]

/-!
## Lemmas about stored-subtree well-formedness
-/

theorem Sub_and_Subs_frame (m : Nat) : ∀ (d : Nat),
    (∀ (s s' : STree K D) (b : Bool) (idx : Nat) (os : List Nat),
      (∀ o ∈ os, s'.store o = s.store o) → Sub s m b idx d os → Sub s' m b idx d os) ∧
    (∀ (s s' : STree K D) (ks : List Nat) (os : List Nat),
      (∀ o ∈ os, s'.store o = s.store o) → Subs s m ks d os → Subs s' m ks d os) := by
  intro d
  induction d with
  | zero =>
    have hsub : ∀ (s s' : STree K D) (b : Bool) (idx : Nat) (os : List Nat),
        (∀ o ∈ os, s'.store o = s.store o) → Sub s m b idx 0 os → Sub s' m b idx 0 os := by
      intro s s' b idx os heq h
      cases h with
      | lf b idx items hst hlo hhi =>
        exact .lf b idx items (by rw [heq idx (by simp)]; exact hst) hlo hhi
    refine ⟨hsub, ?_⟩
    intro s s' ks os heq h
    induction ks generalizing os with
    | nil => cases h; exact .nil 0
    | cons k ks ihl =>
      cases h with
      | cons k ks d os1 os2 h1 h2 =>
        refine .cons k ks 0 os1 os2 ?_ ?_
        · exact hsub s s' false k os1 (fun o ho => heq o (by simp [ho])) h1
        · exact ihl os2 (fun o ho => heq o (by simp [ho])) h2
  | succ d ih =>
    have hsub : ∀ (s s' : STree K D) (b : Bool) (idx : Nat) (os : List Nat),
        (∀ o ∈ os, s'.store o = s.store o) →
        Sub s m b idx (d + 1) os → Sub s' m b idx (d + 1) os := by
      intro s s' b idx os heq h
      cases h with
      | nd b idx items ks d os hst hks hlo hhi hsubs =>
        refine .nd b idx items ks d os ?_ hks hlo hhi ?_
        · rw [heq idx (by simp)]; exact hst
        · exact ih.2 s s' ks os (fun o ho => heq o (by simp [ho])) hsubs
    refine ⟨hsub, ?_⟩
    intro s s' ks os heq h
    induction ks generalizing os with
    | nil => cases h; exact .nil _
    | cons k ks ihl =>
      cases h with
      | cons k ks dd os1 os2 h1 h2 =>
        refine .cons k ks _ os1 os2 ?_ ?_
        · exact hsub s s' false k os1 (fun o ho => heq o (by simp [ho])) h1
        · exact ihl os2 (fun o ho => heq o (by simp [ho])) h2

theorem Sub_frame {m : Nat} {d : Nat} {s s' : STree K D} {b : Bool} {idx : Nat}
    {os : List Nat} (heq : ∀ o ∈ os, s'.store o = s.store o)
    (h : Sub s m b idx d os) : Sub s' m b idx d os :=
  (Sub_and_Subs_frame m d).1 s s' b idx os heq h

theorem Subs_frame {m : Nat} {d : Nat} {s s' : STree K D} {ks : List Nat}
    {os : List Nat} (heq : ∀ o ∈ os, s'.store o = s.store o)
    (h : Subs s m ks d os) : Subs s' m ks d os :=
  (Sub_and_Subs_frame m d).2 s s' ks os heq h

theorem Subs_append {m : Nat} {d : Nat} {s : STree K D} {ks1 ks2 : List Nat}
    {os1 os2 : List Nat} (h1 : Subs s m ks1 d os1) (h2 : Subs s m ks2 d os2) :
    Subs s m (ks1 ++ ks2) d (os1 ++ os2) := by
  induction ks1 generalizing os1 with
  | nil => cases h1; simpa using h2
  | cons k ks ihl =>
    cases h1 with
    | cons k ks d osa osb ha hb =>
      rw [List.cons_append, List.append_assoc]
      exact .cons k (ks ++ ks2) d osa (osb ++ os2) ha (ihl hb)

theorem Subs_split {m : Nat} {d : Nat} {s : STree K D} : ∀ {ks : List Nat}
    {os : List Nat} (i : Nat) (k : Nat), Subs s m ks d os → ks.get? i = some k →
    ∃ os1 os2 os3, os = os1 ++ os2 ++ os3 ∧
      Subs s m (ks.take i) d os1 ∧ Sub s m false k d os2 ∧
      Subs s m (ks.drop (i + 1)) d os3 := by
  intro ks os i k h hg
  induction i generalizing ks os with
  | zero =>
    cases h with
    | nil => simp at hg
    | cons k0 ks d os1 os2 h1 h2 =>
      simp only [List.get?_cons_zero, Option.some.injEq] at hg
      subst hg
      exact ⟨[], os1, os2, by simp, .nil d, h1, by simpa using h2⟩
  | succ i ihi =>
    cases h with
    | nil => simp at hg
    | cons k0 ks d os1 os2 h1 h2 =>
      simp only [List.get?_cons_succ] at hg
      obtain ⟨osa, osb, osc, heq, ha, hb, hc⟩ := ihi h2 hg
      refine ⟨os1 ++ osa, osb, osc, by simp [heq], ?_, hb, by simpa using hc⟩
      simpa using Subs.cons k0 (ks.take i) d os1 osa h1 ha

theorem Sub_os_ne_nil {m d : Nat} {s : STree K D} {b : Bool} {idx : Nat} {os : List Nat}
    (h : Sub s m b idx d os) : idx ∈ os := by
  cases h <;> simp

theorem Sub_os_length (m : Nat) : ∀ (d : Nat) (s : STree K D) (b : Bool) (idx : Nat)
    (os : List Nat), Sub s m b idx d os → d + 1 ≤ os.length := by
  intro d
  induction d with
  | zero => intro s b idx os h; cases h; simp
  | succ d ih =>
    intro s b idx os h
    cases h with
    | nd b idx items ks d os hst hks hlo hhi hsubs =>
      cases hsubs with
      | nil => simp at hks
      | cons k ks d os1 os2 h1 h2 =>
        have := ih s false k os1 h1
        simp only [List.length_cons, List.length_append]
        omega

/-!
## Evaluation lemmas for the engine's helper operations
-/

theorem dropLast_take (l : List α) (n : Nat) (h : n ≤ l.length) :
    (l.take n).dropLast = l.take (n - 1) := by
  induction l generalizing n with
  | nil => simp
  | cons x xs ih =>
    match n with
    | 0 => simp
    | 1 => simp
    | n + 2 =>
      have hxs : n + 1 ≤ xs.length := by simp at h; omega
      have hne : xs.take (n + 1) ≠ [] := by
        apply List.ne_nil_of_length_pos
        rw [List.length_take]
        omega
      simp only [List.take_succ_cons, List.dropLast_cons_of_ne_nil hne, ih (n + 1) hxs]
      simp

theorem getLast?_take (l : List α) (i : Nat) (h : i < l.length) :
    (l.take (i + 1)).getLast? = l.get? i := by
  have hlen : (l.take (i + 1)).length = i + 1 := by
    rw [List.length_take]
    omega
  rw [List.getLast?_eq_getElem?, hlen, Nat.add_sub_cancel, List.getElem?_take,
    if_pos (by omega), List.get?_eq_getElem?]

theorem insertIdx_eq_take_cons_drop (l : List α) (i : Nat) (x : α) (h : i ≤ l.length) :
    List.insertIdx i x l = l.take i ++ x :: l.drop i := by
  induction l generalizing i with
  | nil =>
    match i with
    | 0 => simp
  | cons y ys ih =>
    match i with
    | 0 => simp
    | i + 1 =>
      simp only [List.insertIdx_succ_cons, List.take_succ_cons, List.drop_succ_cons,
        List.cons_append, List.cons.injEq, true_and]
      exact ih i (by simpa using h)

/-- The `push`/`swap`/`pop` idiom evaluated: with `idx < len = l.length`,
it returns the displaced element `l[idx]` and leaves `l.set idx x`. -/
theorem swapOut_eq (l : List (K × D)) (idx : Nat) (x : K × D) (h : idx < l.length) :
    swapOut l idx l.length x = .ok (l.get ⟨idx, h⟩, l.set idx x) := by
  have h1 : (l ++ [x]).get? idx = some (l.get ⟨idx, h⟩) := by
    rw [List.get?_append h, List.get?_eq_get h]
  have h2 : (l ++ [x]).get? l.length = some x := List.get?_concat_length l x
  have h3 : ((l ++ [x]).set idx x).set l.length (l.get ⟨idx, h⟩) =
      l.set idx x ++ [l.get ⟨idx, h⟩] := by
    rw [List.set_append_left _ _ h]
    rw [List.set_append_right _ _ (by simp)]
    simp
  simp only [swapOut, vswap, h1, h2, h3, vpop, List.getLast?_concat, List.dropLast_concat,
    liftOpt, Bind.bind, Except.bind]

/-- `splitNode` on a leaf node evaluated: with `items.length = len ≥ 1`,
the median index is `len / 2`; the left keeps `items.take (len / 2)`, the
separator is `items[len / 2]`, the right is a fresh leaf with
`items.drop (len / 2 + 1)`. -/
theorem splitNode_leaf_eq (n : BufNode K D) (r : Nat)
    (hlen : n.items.length = n.head.len) (hne : 1 ≤ n.head.len) (hleaf : n.head.leaf ≠ 0) :
    splitNode n r =
      .ok (n.items.get ⟨n.head.len / 2, by omega⟩,
        { n with head := { n.head with len := n.head.len / 2 },
                 items := n.items.take (n.head.len / 2) },
        ⟨⟨r, n.head.len - n.head.len / 2 - 1, n.head.leaf⟩,
         n.items.drop (n.head.len / 2 + 1), []⟩) := by
  have hle : n.head.len / 2 + 1 ≤ n.items.length := by omega
  have hlt : n.head.len / 2 < n.items.length := by omega
  have hpop : vpop (n.items.take (n.head.len / 2 + 1)) =
      some (n.items.get ⟨n.head.len / 2, hlt⟩, n.items.take (n.head.len / 2)) := by
    simp only [vpop, getLast?_take _ _ hlt, List.get?_eq_get hlt, dropLast_take _ _ hle]
    simp
  simp only [splitNode, vsplitOff, if_pos hle, if_pos hleaf, hpop,
    liftOpt, Bind.bind, Except.bind]
  have hll : (n.items.take (n.head.len / 2)).length = n.head.len / 2 := by
    rw [List.length_take]
    omega
  simp [hll]

/-- `splitNode` on an internal node evaluated: additionally the child
offsets split at `len / 2 + 1`. -/
theorem splitNode_internal_eq (n : BufNode K D) (r : Nat)
    (hlen : n.items.length = n.head.len) (hne : 1 ≤ n.head.len) (hleaf : n.head.leaf = 0)
    (hnext : n.next.length = n.head.len + 1) :
    splitNode n r =
      .ok (n.items.get ⟨n.head.len / 2, by omega⟩,
        { n with head := { n.head with len := n.head.len / 2 },
                 items := n.items.take (n.head.len / 2),
                 next := n.next.take (n.head.len / 2 + 1) },
        ⟨⟨r, n.head.len - n.head.len / 2 - 1, n.head.leaf⟩,
         n.items.drop (n.head.len / 2 + 1), n.next.drop (n.head.len / 2 + 1)⟩) := by
  have hle : n.head.len / 2 + 1 ≤ n.items.length := by omega
  have hlt : n.head.len / 2 < n.items.length := by omega
  have hlen2 : n.head.len / 2 + 1 ≤ n.next.length := by omega
  have hpop : vpop (n.items.take (n.head.len / 2 + 1)) =
      some (n.items.get ⟨n.head.len / 2, hlt⟩, n.items.take (n.head.len / 2)) := by
    simp only [vpop, getLast?_take _ _ hlt, List.get?_eq_get hlt, dropLast_take _ _ hle]
    simp
  simp only [splitNode, vsplitOff, if_pos hle, if_pos hlen2, hleaf, hpop,
    liftOpt, Bind.bind, Except.bind]
  have hll : (n.items.take (n.head.len / 2)).length = n.head.len / 2 := by
    rw [List.length_take]
    omega
  simp [hll]

/-!
## Support lemmas for the insert invariant
-/

theorem rustBinarySearch_inl_lt [LinearOrder K] {l : List (K × D)} {k : K × D} {i : Nat}
    (h : rustBinarySearch l k = .inl i) : i < l.length := by
  unfold rustBinarySearch at h
  cases hg : l.get? (l.countP fun x => decide (x.1 < k.1)) with
  | none => simp only [hg] at h; cases h
  | some x =>
    simp only [hg] at h
    split at h
    · cases h
      exact List.get?_eq_some.mp hg |>.1
    · cases h

theorem rustBinarySearch_inr_le [LinearOrder K] {l : List (K × D)} {k : K × D} {i : Nat}
    (h : rustBinarySearch l k = .inr i) : i ≤ l.length := by
  unfold rustBinarySearch at h
  cases hg : l.get? (l.countP fun x => decide (x.1 < k.1)) with
  | none =>
    simp only [hg] at h
    cases h
    exact List.countP_le_length _
  | some x =>
    simp only [hg] at h
    split at h
    · cases h
    · cases h
      exact List.countP_le_length _

theorem read_node_of_store (s : STree K D) (idx : Nat) (n : BufNode K D)
    (hst : s.store idx = some (.node n)) (hidx : n.head.idx = idx)
    (hlen : n.head.len ≤ s.size) : read_node s idx = .ok n := by
  simp only [read_node, hst, hidx]
  rw [if_neg (by simp), if_neg (by omega)]

theorem new_idx_of_gone_none (s : STree K D) (hg : s.gone = none) :
    new_idx s = .ok (s.last, { s with last := s.last + allocWidth s }) := by
  simp [new_idx, hg]

theorem vinsert_eq (l : List α) (i : Nat) (x : α) (h : i ≤ l.length) :
    vinsert l i x = some (l.take i ++ x :: l.drop i) := by
  rw [vinsert, if_pos h, insertIdx_eq_take_cons_drop l i x h]

/-- Invert a `Sub` derivation into the stored node's shape. -/
theorem Sub_store {m d : Nat} {s : STree K D} {b : Bool} {idx : Nat} {os : List Nat}
    (h : Sub s m b idx d os) :
    ∃ n : BufNode K D, s.store idx = some (.node n) ∧ n.head.idx = idx ∧
      n.items.length = n.head.len ∧
      (if b then 1 else (m + 1) / 2 - 1) ≤ n.head.len ∧ n.head.len ≤ m ∧
      ((d = 0 ∧ n.head.leaf = 1 ∧ n.next = []) ∨
       (1 ≤ d ∧ n.head.leaf = 0 ∧ n.next.length = n.head.len + 1)) := by
  cases h with
  | lf b idx items hst hlo hhi =>
    exact ⟨_, hst, rfl, rfl, hlo, hhi, Or.inl ⟨rfl, rfl, rfl⟩⟩
  | nd b idx items ks d os hst hks hlo hhi hsubs =>
    exact ⟨_, hst, rfl, rfl, hlo, hhi, Or.inr ⟨by omega, rfl, by simpa using hks⟩⟩

theorem Subs_take_drop {m d : Nat} {s : STree K D} : ∀ {ks : List Nat} {os : List Nat}
    (i : Nat), Subs s m ks d os →
    ∃ os1 os2, os = os1 ++ os2 ∧ Subs s m (ks.take i) d os1 ∧ Subs s m (ks.drop i) d os2 := by
  intro ks os i h
  induction i generalizing ks os with
  | zero => exact ⟨[], os, by simp, .nil d, by simpa using h⟩
  | succ i ihi =>
    cases h with
    | nil => exact ⟨[], [], by simp, .nil d, .nil d⟩
    | cons k ks d os1 os2 h1 h2 =>
      obtain ⟨osa, osb, heq, ha, hb⟩ := ihi h2
      exact ⟨os1 ++ osa, osb, by simp [heq], by simpa using Subs.cons k _ d os1 osa h1 ha,
        by simpa using hb⟩

theorem drop_eq_cons_of_get? (l : List Nat) (i x : Nat) (h : l.get? i = some x) :
    l.drop i = x :: l.drop (i + 1) := by
  have hi : i < l.length := List.get?_eq_some.mp h |>.1
  rw [List.drop_eq_getElem_cons hi]
  congr 1
  have := List.get?_eq_some.mp h
  obtain ⟨hlt, hx⟩ := this
  simp [← hx]

theorem take_succ_of_get? (l : List Nat) (i x : Nat) (h : l.get? i = some x) :
    l.take (i + 1) = l.take i ++ [x] := by
  rw [List.get?_eq_getElem?] at h
  rw [List.take_succ, h]
  rfl

theorem get?_append_cons (l1 : List α) (x : α) (l2 : List α) :
    (l1 ++ x :: l2).get? l1.length = some x := by
  induction l1 with
  | nil => rfl
  | cons y ys ih => simpa using ih

theorem drop_append_cons (l1 : List α) (x : α) (l2 : List α) :
    (l1 ++ x :: l2).drop (l1.length + 1) = l2 := by
  induction l1 with
  | nil => rfl
  | cons y ys ih => simpa using ih

theorem nodup_lt_length_le (l : List Nat) (L : Nat) (hnd : l.Nodup)
    (hlt : ∀ o ∈ l, o < L) : l.length ≤ L := by
  have h1 : l.toFinset ⊆ Finset.range L := by
    intro a ha
    rw [List.mem_toFinset] at ha
    rw [Finset.mem_range]
    exact hlt a ha
  have h2 := Finset.card_le_card h1
  rwa [List.toFinset_card_of_nodup hnd, Finset.card_range] at h2

theorem nodup_insert_fresh (A B : List Nat) (x L : Nat)
    (hnd : (A ++ B).Nodup) (hlt : ∀ o ∈ A ++ B, o < L) (hx : L ≤ x) :
    (A ++ x :: B).Nodup ∧ (∀ o ∈ A ++ x :: B, o ∈ A ++ B ∨ o = x) := by
  constructor
  · rw [List.nodup_middle, List.nodup_cons]
    exact ⟨fun hmem => absurd (hlt x hmem) (by omega), hnd⟩
  · intro o ho
    rcases List.mem_append.mp ho with h | h
    · exact Or.inl (List.mem_append.mpr (Or.inl h))
    · rcases List.mem_cons.mp h with h | h
      · exact Or.inr h
      · exact Or.inl (List.mem_append.mpr (Or.inr h))

/-- Replacing the middle block of a nodup offset list by a block whose new
elements are all fresh (at or beyond `L`) keeps it nodup. -/
theorem splice_facts (os1 os2 os3 os2' : List Nat) (L : Nat)
    (hnd : (os1 ++ os2 ++ os3).Nodup)
    (hnd2 : os2'.Nodup)
    (hsub : ∀ o ∈ os2', o ∈ os2 ∨ L ≤ o)
    (hlt : ∀ o, o ∈ os1 ++ os2 ++ os3 → o < L) :
    (os1 ++ os2' ++ os3).Nodup ∧
    (∀ o, o ∈ os1 ++ os2' ++ os3 → o ∈ os1 ++ os2 ++ os3 ∨ L ≤ o) := by
  rw [List.append_assoc, List.nodup_append] at hnd
  obtain ⟨h1, h23, h123⟩ := hnd
  rw [List.nodup_append] at h23
  obtain ⟨h2, h3, h23d⟩ := h23
  constructor
  · rw [List.append_assoc, List.nodup_append]
    refine ⟨h1, ?_, ?_⟩
    · rw [List.nodup_append]
      refine ⟨hnd2, h3, ?_⟩
      intro a ha ha3
      rcases hsub a ha with h | h
      · exact h23d h ha3
      · have := hlt a (List.mem_append.mpr (Or.inr ha3))
        omega
    · intro a ha hmem
      rcases List.mem_append.mp hmem with hm | hm
      · rcases hsub a hm with h | h
        · exact h123 ha (List.mem_append.mpr (Or.inl h))
        · have := hlt a (List.mem_append.mpr (Or.inl (List.mem_append.mpr (Or.inl ha))))
          omega
      · exact h123 ha (List.mem_append.mpr (Or.inr hm))
  · intro o ho
    simp only [List.mem_append] at ho ⊢
    rcases ho with (h | h) | h
    · exact Or.inl (Or.inl (Or.inl h))
    · rcases hsub o h with h' | h'
      · exact Or.inl (Or.inl (Or.inr h'))
      · exact Or.inr h'
    · exact Or.inl (Or.inr h)

/-- Rebuild an internal node's `Sub` derivation after one of its subtrees
(the one rooted at child position `i`) has been rewritten by a recursive
insert: the other subtrees and the parent record itself are untouched
(`hframe`), and the new subtree offsets are either old ones or fresh. -/
theorem Sub_nd_splice {m : Nat} {s s1 : STree K D} {b : Bool} {cidx : Nat}
    {citems : List (K × D)} {ks : List Nat} {d : Nat}
    {i : Nat} {child : Nat} {os1 os2 os3 os2' : List Nat}
    (hst : s.store cidx = some (.node ⟨⟨cidx, citems.length, 0⟩, citems, ks⟩))
    (hks : ks.length = citems.length + 1)
    (hlo : (if b then 1 else (m + 1) / 2 - 1) ≤ citems.length)
    (hhi : citems.length ≤ m)
    (hget : ks.get? i = some child)
    (h1 : Subs s m (ks.take i) d os1)
    (h3 : Subs s m (ks.drop (i + 1)) d os3)
    (hnd : (cidx :: (os1 ++ os2 ++ os3)).Nodup)
    (hos : ∀ o ∈ cidx :: (os1 ++ os2 ++ os3), o < s.last)
    (hsub1 : Sub s1 m false child d os2')
    (hnd2 : os2'.Nodup)
    (hlt2 : ∀ o ∈ os2', o < s1.last)
    (hsubset2 : ∀ o ∈ os2', o ∈ os2 ∨ s.last ≤ o)
    (hlast : s.last ≤ s1.last)
    (hframe : ∀ j, j < s.last → j ∉ os2 → s1.store j = s.store j) :
    Sub s1 m b cidx (d + 1) (cidx :: (os1 ++ os2' ++ os3)) ∧
    (cidx :: (os1 ++ os2' ++ os3)).Nodup ∧
    (∀ o ∈ cidx :: (os1 ++ os2' ++ os3), o < s1.last) ∧
    (∀ o ∈ cidx :: (os1 ++ os2' ++ os3),
      o ∈ cidx :: (os1 ++ os2 ++ os3) ∨ s.last ≤ o) := by
  have hks_eq : ks = ks.take i ++ child :: ks.drop (i + 1) := by
    conv_lhs => rw [← List.take_append_drop i ks]
    rw [drop_eq_cons_of_get? ks i child hget]
  have hndc := List.nodup_cons.mp hnd
  have hcnotin : cidx ∉ os1 ++ os2 ++ os3 := hndc.1
  have hndt : (os1 ++ os2 ++ os3).Nodup := hndc.2
  have hd12 : ∀ o ∈ os1, o ∉ os2 := by
    intro o ho1 ho2
    have : (os1 ++ os2).Nodup := ((List.nodup_append.mp hndt).1 : (os1 ++ os2).Nodup)
    exact (List.nodup_append.mp this).2.2 ho1 ho2
  have hd32 : ∀ o ∈ os3, o ∉ os2 := by
    intro o ho3 ho2
    exact (List.nodup_append.mp hndt).2.2 (List.mem_append.mpr (Or.inr ho2)) ho3
  have hot : ∀ o, o ∈ os1 ++ os2 ++ os3 → o < s.last := by
    intro o ho
    exact hos o (List.mem_cons.mpr (Or.inr ho))
  have hf1 : ∀ o ∈ os1, s1.store o = s.store o := fun o ho =>
    hframe o (hot o (List.mem_append.mpr (Or.inl (List.mem_append.mpr (Or.inl ho)))))
      (hd12 o ho)
  have hf3 : ∀ o ∈ os3, s1.store o = s.store o := fun o ho =>
    hframe o (hot o (List.mem_append.mpr (Or.inr ho))) (hd32 o ho)
  have hfc : s1.store cidx = s.store cidx := by
    refine hframe cidx (hos cidx (List.mem_cons_self _ _)) (fun hc => hcnotin ?_)
    exact List.mem_append.mpr (Or.inl (List.mem_append.mpr (Or.inr hc)))
  have h1' : Subs s1 m (ks.take i) d os1 := Subs_frame hf1 h1
  have h3' : Subs s1 m (ks.drop (i + 1)) d os3 := Subs_frame hf3 h3
  have hkids : Subs s1 m ks d (os1 ++ os2' ++ os3) := by
    have := Subs_append h1' (Subs.cons child (ks.drop (i + 1)) d os2' os3 hsub1 h3')
    rw [← hks_eq] at this
    rwa [← List.append_assoc] at this
  have hsubP : Sub s1 m b cidx (d + 1) (cidx :: (os1 ++ os2' ++ os3)) :=
    Sub.nd b cidx citems ks d _ (hfc.trans hst) hks hlo hhi hkids
  obtain ⟨hndN, hmemN⟩ := splice_facts os1 os2 os3 os2' s.last hndt hnd2 hsubset2 hot
  refine ⟨hsubP, ?_, ?_, ?_⟩
  · rw [List.nodup_cons]
    refine ⟨fun hc => ?_, hndN⟩
    rcases hmemN cidx hc with h | h
    · exact hcnotin h
    · have := hos cidx (List.mem_cons_self _ _)
      omega
  · intro o ho
    rcases List.mem_cons.mp ho with h | h
    · subst h
      have := hos o (List.mem_cons_self _ _)
      omega
    · simp only [List.mem_append] at h
      rcases h with (h | h) | h
      · have := hot o (List.mem_append.mpr (Or.inl (List.mem_append.mpr (Or.inl h))))
        omega
      · exact hlt2 o h
      · have := hot o (List.mem_append.mpr (Or.inr h))
        omega
  · intro o ho
    rcases List.mem_cons.mp ho with h | h
    · exact Or.inl (List.mem_cons.mpr (Or.inl h))
    · rcases hmemN o h with h' | h'
      · exact Or.inl (List.mem_cons.mpr (Or.inr h'))
      · exact Or.inr h'

theorem bound_false (m : Nat) :
    (if (false : Bool) = true then 1 else (m + 1) / 2 - 1) = (m + 1) / 2 - 1 := rfl

/-- Splitting a full child at a fresh offset `s.last`: evaluates
`splitNode` and rebuilds `Sub` derivations for the two halves in any state
`W` holding the two freshly written records over `s`'s store. -/
theorem split_child_pack {m d : Nat} {s : STree K D} {nextIdx : Nat}
    {os2 : List Nat} {C : BufNode K D} {b : Bool}
    (hm : 1 ≤ m)
    (hsub : Sub s m b nextIdx d os2)
    (hstC : s.store nextIdx = some (.node C))
    (hfull : C.head.len = m)
    (hos : ∀ o ∈ os2, o < s.last) (hnd : os2.Nodup) :
    ∃ (sep : K × D) (left right : BufNode K D) (A B : List Nat),
      splitNode C s.last = .ok (sep, left, right) ∧
      left.head.idx = nextIdx ∧ left.head.len = m / 2 ∧
      right.head.idx = s.last ∧ right.head.len = m - m / 2 - 1 ∧
      os2 = A ++ B ∧
      (∀ (W : STree K D),
        (∀ j, W.store j = if j = nextIdx then some (.node left)
            else if j = s.last then some (.node right) else s.store j) →
        Sub W m false nextIdx d A ∧ Sub W m false s.last d (s.last :: B)) := by
  have hlastne : nextIdx < s.last := hos nextIdx (Sub_os_ne_nil hsub)
  cases hsub with
  | lf _ _ citems hst hlo hhi =>
    rw [hstC] at hst
    have hC : C = ⟨⟨nextIdx, citems.length, 1⟩, citems, []⟩ := by simpa using hst
    subst hC
    have hfull' : citems.length = m := hfull
    have hne : (1 : Nat) ≤ citems.length := by omega
    have hsplit := splitNode_leaf_eq (⟨⟨nextIdx, citems.length, 1⟩, citems, []⟩ : BufNode K D)
      s.last rfl hne Nat.one_ne_zero
    refine ⟨_, _, _, [nextIdx], [], hsplit, rfl, ?_, rfl, ?_, by simp, ?_⟩
    · show citems.length / 2 = m / 2
      rw [hfull']
    · show citems.length - citems.length / 2 - 1 = m - m / 2 - 1
      rw [hfull']
    · intro W hW
      have hll : (citems.take (citems.length / 2)).length = citems.length / 2 := by
        rw [List.length_take]; omega
      have hrl : (citems.drop (citems.length / 2 + 1)).length =
          citems.length - citems.length / 2 - 1 := by
        rw [List.length_drop]; omega
      constructor
      · have hlw : W.store nextIdx = some (.node ⟨⟨nextIdx,
            (citems.take (citems.length / 2)).length, 1⟩,
            citems.take (citems.length / 2), []⟩) := by
          rw [hW nextIdx, if_pos rfl, hll]
        exact Sub.lf false nextIdx _ hlw (by rw [hll, bound_false]; omega) (by rw [hll]; omega)
      · have hrw : W.store s.last = some (.node ⟨⟨s.last,
            (citems.drop (citems.length / 2 + 1)).length, 1⟩,
            citems.drop (citems.length / 2 + 1), []⟩) := by
          rw [hW s.last, if_neg (by omega), if_pos rfl, hrl]
        exact Sub.lf false s.last _ hrw (by rw [hrl, bound_false]; omega) (by rw [hrl]; omega)
  | nd _ _ citems cks dc osc hst hks hlo hhi hsubs =>
    rw [hstC] at hst
    have hC : C = ⟨⟨nextIdx, citems.length, 0⟩, citems, cks⟩ := by simpa using hst
    subst hC
    have hfull' : citems.length = m := hfull
    have hne : (1 : Nat) ≤ citems.length := by omega
    have hsplit := splitNode_internal_eq
      (⟨⟨nextIdx, citems.length, 0⟩, citems, cks⟩ : BufNode K D) s.last rfl hne rfl hks
    obtain ⟨oscL, oscR, hosc, hTake, hDrop⟩ :=
      Subs_take_drop (citems.length / 2 + 1) hsubs
    have hndc := List.nodup_cons.mp hnd
    have hfW : ∀ (W : STree K D) (a b : Option (Cell K D)),
        (∀ j, W.store j = if j = nextIdx then a else if j = s.last then b else s.store j) →
        ∀ o ∈ osc, W.store o = s.store o := by
      intro W a b hW o ho
      have h1 : o ≠ nextIdx := fun h => hndc.1 (h ▸ ho)
      have h2 : o < s.last := hos o (List.mem_cons.mpr (Or.inr ho))
      rw [hW o, if_neg h1, if_neg (by omega)]
    refine ⟨_, _, _, nextIdx :: oscL, oscR, hsplit, rfl, ?_, rfl, ?_, by simp [hosc], ?_⟩
    · show citems.length / 2 = m / 2
      rw [hfull']
    · show citems.length - citems.length / 2 - 1 = m - m / 2 - 1
      rw [hfull']
    · intro W hW
      have hll : (citems.take (citems.length / 2)).length = citems.length / 2 := by
        rw [List.length_take]; omega
      have hrl : (citems.drop (citems.length / 2 + 1)).length =
          citems.length - citems.length / 2 - 1 := by
        rw [List.length_drop]; omega
      have hkl : (cks.take (citems.length / 2 + 1)).length = citems.length / 2 + 1 := by
        rw [List.length_take]; omega
      have hkr : (cks.drop (citems.length / 2 + 1)).length =
          citems.length - citems.length / 2 := by
        rw [List.length_drop]; omega
      have hWo := hfW W _ _ hW
      constructor
      · have hlw : W.store nextIdx = some (.node ⟨⟨nextIdx,
            (citems.take (citems.length / 2)).length, 0⟩,
            citems.take (citems.length / 2), cks.take (citems.length / 2 + 1)⟩) := by
          rw [hW nextIdx, if_pos rfl, hll]
        refine Sub.nd false nextIdx _ _ dc oscL hlw (by rw [hkl, hll])
          (by rw [hll, bound_false]; omega) (by rw [hll]; omega) ?_
        exact Subs_frame (fun o ho => hWo o (hosc ▸ List.mem_append.mpr (Or.inl ho))) hTake
      · have hrw : W.store s.last = some (.node ⟨⟨s.last,
            (citems.drop (citems.length / 2 + 1)).length, 0⟩,
            citems.drop (citems.length / 2 + 1), cks.drop (citems.length / 2 + 1)⟩) := by
          rw [hW s.last, if_neg (by omega), if_pos rfl, hrl]
        refine Sub.nd false s.last _ _ dc oscR hrw (by rw [hkr, hrl]; omega)
          (by rw [hrl, bound_false]; omega) (by rw [hrl]; omega) ?_
        exact Subs_frame (fun o ho => hWo o (hosc ▸ List.mem_append.mpr (Or.inr ho))) hDrop

theorem get?_append_cons' (l1 : List α) (x : α) (l2 : List α) (n : Nat)
    (h : l1.length = n) : (l1 ++ x :: l2).get? n = some x :=
  h ▸ get?_append_cons l1 x l2

theorem drop_append_cons' (l1 : List α) (x : α) (l2 : List α) (n : Nat)
    (h : l1.length = n) : (l1 ++ x :: l2).drop (n + 1) = l2 :=
  h ▸ drop_append_cons l1 x l2

/-- The descent loop of `insert_idx` preserves the occupancy/uniform-depth
invariant `Sub`: run on a node with spare capacity whose subtree satisfies
`Sub`, it succeeds and leaves a subtree at the same offset and depth
satisfying `Sub`, touching only offsets of that subtree and fresh slots. -/
theorem insertLoop_ok [LinearOrder K] {m : Nat} (hm : 1 ≤ m) :
    ∀ (fuel : Nat) (s : STree K D) (b : Bool) (cur : BufNode K D) (d : Nat)
      (os : List Nat) (item : K × D),
      s.size = m → s.gone = none →
      s.store cur.head.idx = some (.node cur) →
      Sub s m b cur.head.idx d os →
      cur.head.len < m →
      os.Nodup → (∀ o ∈ os, o < s.last) →
      d < fuel →
      ∃ res s1 os1,
        insertLoop s cur item fuel = .ok (res, s1) ∧
        Sub s1 m b cur.head.idx d os1 ∧
        os1.Nodup ∧
        (∀ o ∈ os1, o < s1.last) ∧
        (∀ o ∈ os1, o ∈ os ∨ s.last ≤ o) ∧
        s.last ≤ s1.last ∧
        s1.size = s.size ∧
        s1.root = s.root ∧
        s1.gone = none ∧
        (∀ j, j < s.last → j ∉ os → s1.store j = s.store j) := by
  intro fuel
  induction fuel with
  | zero =>
    intro s b cur d os item _ _ _ _ _ _ _ hd
    omega
  | succ fuel ih =>
    intro s b cur d os item hsize hgone hcur hsub hroom hnd hos hd
    obtain ⟨⟨cidx, clen, cleaf⟩, citems, cnext⟩ := cur
    simp only at hcur hsub hroom ⊢
    cases hsub with
    | lf _ _ items hst hlo hhi =>
      have hfields := hcur.symm.trans hst
      simp only [Option.some.injEq, Cell.node.injEq, BufNode.mk.injEq,
        BufNodeHead.mk.injEq, true_and] at hfields
      obtain ⟨⟨hclen, hcleaf⟩, hcitems, hcnext⟩ := hfields
      subst hcitems
      subst hclen
      subst hcleaf
      subst hcnext
      cases hbs : rustBinarySearch citems item with
      | inl i =>
        have hi := rustBinarySearch_inl_lt hbs
        have hlset : (citems.set i item).length = citems.length := List.length_set citems i item
        refine ⟨.inr (citems.get ⟨i, hi⟩),
          write_node s ⟨⟨cidx, citems.length, 1⟩, citems.set i item, []⟩, [cidx],
          ?_, ?_, by simp, ?_, fun o ho => Or.inl ho, le_refl _, rfl, rfl, hgone, ?_⟩
        · simp only [insertLoop, hbs]
          rw [if_neg (by omega)]
          rw [swapOut_eq citems i item hi]
          simp only [Bind.bind, Except.bind]
        · refine Sub.lf b cidx (citems.set i item) ?_ (by rw [hlset]; exact hlo)
            (by rw [hlset]; exact hhi)
          rw [hlset]
          simp [write_node]
        · intro o ho
          simp only [List.mem_singleton] at ho
          rw [ho]
          exact hos cidx (by simp)
        · intro j hj hjn
          simp only [write_node]
          rw [if_neg (fun h => hjn (by simp [h]))]
      | inr i =>
        have hi := rustBinarySearch_inr_le hbs
        have hl1 : (citems.take i ++ item :: citems.drop i).length = citems.length + 1 := by
          rw [List.length_append, List.length_take, List.length_cons, List.length_drop]
          omega
        refine ⟨.inl cidx,
          write_node s ⟨⟨cidx, citems.length + 1, 1⟩,
            citems.take i ++ item :: citems.drop i, []⟩, [cidx],
          ?_, ?_, by simp, ?_, fun o ho => Or.inl ho, le_refl _, rfl, rfl, hgone, ?_⟩
        · simp only [insertLoop, hbs]
          rw [if_neg (by omega)]
          rw [vinsert_eq citems i item hi]
          simp only [liftOpt, Bind.bind, Except.bind]
        · refine Sub.lf b cidx (citems.take i ++ item :: citems.drop i) ?_
            (by rw [hl1]; omega) (by rw [hl1]; omega)
          rw [hl1]
          simp [write_node]
        · intro o ho
          simp only [List.mem_singleton] at ho
          rw [ho]
          exact hos cidx (by simp)
        · intro j hj hjn
          simp only [write_node]
          rw [if_neg (fun h => hjn (by simp [h]))]
    | nd _ _ items ks d' os' hst hks hlo hhi hsubs =>
      have hfields := hcur.symm.trans hst
      simp only [Option.some.injEq, Cell.node.injEq, BufNode.mk.injEq,
        BufNodeHead.mk.injEq, true_and] at hfields
      obtain ⟨⟨hclen, hcleaf⟩, hcitems, hcnext⟩ := hfields
      subst hcitems
      subst hclen
      subst hcleaf
      subst hcnext
      have hcnotin : cidx ∉ os' := (List.nodup_cons.mp hnd).1
      cases hbs : rustBinarySearch citems item with
      | inl i =>
        have hi := rustBinarySearch_inl_lt hbs
        have hlset : (citems.set i item).length = citems.length := List.length_set citems i item
        refine ⟨.inr (citems.get ⟨i, hi⟩),
          write_node s ⟨⟨cidx, citems.length, 0⟩, citems.set i item, cnext⟩, cidx :: os',
          ?_, ?_, hnd, ?_, fun o ho => Or.inl ho, le_refl _, rfl, rfl, hgone, ?_⟩
        · simp only [insertLoop, hbs]
          rw [swapOut_eq citems i item hi]
          simp only [Bind.bind, Except.bind]
          simp
        · refine Sub.nd b cidx (citems.set i item) cnext d' os' ?_ (by rw [hlset]; exact hks)
            (by rw [hlset]; exact hlo) (by rw [hlset]; exact hhi) ?_
          · rw [hlset]
            simp [write_node]
          · refine Subs_frame (fun o ho => ?_) hsubs
            have hoc : o ≠ cidx := fun h => hcnotin (h ▸ ho)
            simp [write_node, hoc]
        · intro o ho
          exact hos o ho
        · intro j hj hjn
          simp only [write_node]
          rw [if_neg (fun h => hjn (by simp [h]))]
      | inr i =>
        have hi := rustBinarySearch_inr_le hbs
        have hiks : i < cnext.length := by omega
        obtain ⟨nextIdx, hget⟩ : ∃ x, cnext.get? i = some x := ⟨_, List.get?_eq_get hiks⟩
        obtain ⟨os1s, os2s, os3s, hosEq, hSubs1, hSubChild, hSubs3⟩ :=
          Subs_split i nextIdx hsubs hget
        subst hosEq
        have hndt : (os1s ++ os2s ++ os3s).Nodup := (List.nodup_cons.mp hnd).2
        have hcnotin2 : cidx ∉ os1s ++ os2s ++ os3s := (List.nodup_cons.mp hnd).1
        have hnd12 : (os1s ++ os2s).Nodup := (List.nodup_append.mp hndt).1
        have hnd2s : os2s.Nodup := (List.nodup_append.mp hnd12).2.1
        have hmem2 : ∀ o ∈ os2s, o ∈ cidx :: (os1s ++ os2s ++ os3s) := fun o ho =>
          List.mem_cons.mpr (Or.inr (List.mem_append.mpr (Or.inl
            (List.mem_append.mpr (Or.inr ho)))))
        have hos2s : ∀ o ∈ os2s, o < s.last := fun o ho => hos o (hmem2 o ho)
        obtain ⟨C, hCst, hCidx, hClen, hClo, hChi, hCshape⟩ := Sub_store hSubChild
        have hread : read_node s nextIdx = .ok C :=
          read_node_of_store s nextIdx C hCst hCidx (by omega)
        by_cases hfull : C.head.len < s.size
        · obtain ⟨res, s1, os2p, heqrec, hsubCp, hnd2p, hlt2p, hsubset2p, hlast2p,
            hszp, hrtp, hgnp, hframep⟩ :=
            ih s false C d' os2s item hsize hgone (by rw [hCidx]; exact hCst)
              (by rw [hCidx]; exact hSubChild) (by omega) hnd2s hos2s (by omega)
          rw [hCidx] at hsubCp
          obtain ⟨hP, hPnd, hPlt, hPsub⟩ :=
            Sub_nd_splice hcur hks hlo hhi hget hSubs1 hSubs3 hnd hos hsubCp
              hnd2p hlt2p hsubset2p hlast2p hframep
          refine ⟨res, s1, cidx :: (os1s ++ os2p ++ os3s), ?_, hP, hPnd, hPlt, hPsub,
            hlast2p, hszp, hrtp, hgnp, ?_⟩
          · simp only [insertLoop, hbs, hget, hread, liftOpt, Bind.bind, Except.bind]
            rw [if_pos hfull]
            exact heqrec
          · intro j hj hjn
            exact hframep j hj (fun hjo => hjn (hmem2 j hjo))
        · -- the child is full: split it at the fresh offset s.last
          have hCfull : C.head.len = m := by omega
          have hdisj12 : os1s.Disjoint os2s := (List.nodup_append.mp hnd12).2.2
          have hdisj13 : (os1s ++ os2s).Disjoint os3s := (List.nodup_append.mp hndt).2.2
          obtain ⟨sep, left, right, A, B, hsplit, hLidx, hLlen, hRidx, hRlen, hABeq, hWfun⟩ :=
            split_child_pack (by omega) hSubChild hCst hCfull hos2s hnd2s
          have hniMem : nextIdx ∈ os2s := Sub_os_ne_nil hSubChild
          have hnilt : nextIdx < s.last := hos2s nextIdx hniMem
          have hcidxlt : cidx < s.last := hos cidx (List.mem_cons_self _ _)
          have hninc : nextIdx ≠ cidx := fun h =>
            hcnotin2 (h ▸ (List.mem_append.mpr (Or.inl (List.mem_append.mpr (Or.inr hniMem)))))
          have haw : allocWidth s = 24 + s.szV * s.size + 8 * (s.size + 1) := rfl
          have hlastlt : s.last < s.last + allocWidth s := by rw [haw]; omega
          have hA2 : ∀ o ∈ A, o ∈ os2s := by
            intro o ho
            rw [hABeq]
            exact List.mem_append.mpr (Or.inl ho)
          have hB2 : ∀ o ∈ B, o ∈ os2s := by
            intro o ho
            rw [hABeq]
            exact List.mem_append.mpr (Or.inr ho)
          have hAlt : ∀ o ∈ A, o < s.last := fun o ho => hos2s o (hA2 o ho)
          have hBlt : ∀ o ∈ B, o < s.last := fun o ho => hos2s o (hB2 o ho)
          have hndAB2 : (A ++ B).Nodup := by rw [← hABeq]; exact hnd2s
          have hndA : A.Nodup := (List.nodup_append.mp hndAB2).1
          have hndB : B.Nodup := (List.nodup_append.mp hndAB2).2.1
          have hAnc : ∀ o ∈ A, o ≠ cidx := fun o ho h =>
            hcnotin2 (h ▸ (List.mem_append.mpr (Or.inl (List.mem_append.mpr (Or.inr (hA2 o ho))))))
          have hBnc : ∀ o ∈ B, o ≠ cidx := fun o ho h =>
            hcnotin2 (h ▸ (List.mem_append.mpr (Or.inl (List.mem_append.mpr (Or.inr (hB2 o ho))))))
          have hti : (cnext.take i).length = i := by rw [List.length_take]; omega
          have hvks : vinsert cnext (i + 1) s.last =
              some ((cnext.take i ++ [nextIdx]) ++ s.last :: cnext.drop (i + 1)) := by
            rw [vinsert_eq cnext (i + 1) s.last (by omega),
              take_succ_of_get? cnext i nextIdx hget]
          have hket : (cnext.take i ++ [nextIdx]) ++ s.last :: cnext.drop (i + 1) =
              cnext.take i ++ nextIdx :: s.last :: cnext.drop (i + 1) := by simp
          have hkslen : ((cnext.take i ++ [nextIdx]) ++ s.last :: cnext.drop (i + 1)).length =
              citems.length + 2 := by
            simp
            omega
          have hinslen : ∀ y : K × D,
              (citems.take i ++ y :: citems.drop i).length = citems.length + 1 := by
            intro y
            rw [List.length_append, List.length_take, List.length_cons, List.length_drop]
            omega
          have hgetP0 : ((cnext.take i ++ [nextIdx]) ++ s.last :: cnext.drop (i + 1)).get? i =
              some nextIdx := by
            rw [hket]
            exact get?_append_cons' _ _ _ i hti
          have htk0 : ((cnext.take i ++ [nextIdx]) ++ s.last :: cnext.drop (i + 1)).take i =
              cnext.take i := by
            rw [hket]
            exact List.take_left' hti
          have hdr0 : ((cnext.take i ++ [nextIdx]) ++ s.last :: cnext.drop (i + 1)).drop (i + 1) =
              s.last :: cnext.drop (i + 1) := by
            rw [hket]
            exact drop_append_cons' _ _ _ i hti
          have hti1 : (cnext.take i ++ [nextIdx]).length = i + 1 := by
            rw [List.length_append, hti]
            rfl
          have hgetP1 : ((cnext.take i ++ [nextIdx]) ++ s.last :: cnext.drop (i + 1)).get? (i + 1) =
              some s.last := get?_append_cons' _ _ _ (i + 1) hti1
          have htk1 : ((cnext.take i ++ [nextIdx]) ++ s.last :: cnext.drop (i + 1)).take (i + 1) =
              cnext.take i ++ [nextIdx] := List.take_left' hti1
          have hdr1 : ((cnext.take i ++ [nextIdx]) ++ s.last :: cnext.drop (i + 1)).drop (i + 1 + 1) =
              cnext.drop (i + 1) := drop_append_cons' _ _ _ (i + 1) hti1
          have hlisteq : (os1s ++ A) ++ (B ++ os3s) = os1s ++ os2s ++ os3s := by
            simp [hABeq]
          have hndABs : ((os1s ++ A) ++ (B ++ os3s)).Nodup := by rw [hlisteq]; exact hndt
          have hosABs : ∀ o ∈ (os1s ++ A) ++ (B ++ os3s), o < s.last := by
            rw [hlisteq]
            exact fun o ho => hos o (List.mem_cons.mpr (Or.inr ho))
          obtain ⟨hndNew, hmemNew⟩ :=
            nodup_insert_fresh (os1s ++ A) (B ++ os3s) s.last s.last hndABs hosABs (le_refl _)
          have hcnotinNew : cidx ∉ (os1s ++ A) ++ s.last :: (B ++ os3s) := by
            intro hc
            rcases hmemNew cidx hc with h | h
            · rw [hlisteq] at h
              exact hcnotin2 h
            · omega
          have hsplitSub : ∀ o ∈ (os1s ++ A) ++ s.last :: (B ++ os3s),
              o ∈ cidx :: (os1s ++ os2s ++ os3s) ∨ s.last ≤ o := by
            intro o ho
            rcases hmemNew o ho with h | h
            · rw [hlisteq] at h
              exact Or.inl (List.mem_cons.mpr (Or.inr h))
            · exact Or.inr (le_of_eq h.symm)
          have hsplitLt : ∀ o ∈ cidx :: ((os1s ++ A) ++ s.last :: (B ++ os3s)),
              o < s.last + allocWidth s := by
            intro o ho
            rcases List.mem_cons.mp ho with h | h
            · omega
            · rcases hmemNew o h with h2 | h2
              · rw [hlisteq] at h2
                have := hos o (List.mem_cons.mpr (Or.inr h2))
                omega
              · omega
          have hshape0 : os1s ++ A ++ ((s.last :: B) ++ os3s) =
              (os1s ++ A) ++ s.last :: (B ++ os3s) := by simp
          have hshape1 : ((os1s ++ A) ++ (s.last :: B)) ++ os3s =
              (os1s ++ A) ++ s.last :: (B ++ os3s) := by simp
          have hndS0 : (cidx :: (os1s ++ A ++ ((s.last :: B) ++ os3s))).Nodup := by
            rw [hshape0]
            exact List.nodup_cons.mpr ⟨hcnotinNew, hndNew⟩
          have hosS0 : ∀ o ∈ cidx :: (os1s ++ A ++ ((s.last :: B) ++ os3s)),
              o < s.last + allocWidth s := by
            rw [hshape0]
            exact hsplitLt
          have hndS1 : (cidx :: (((os1s ++ A) ++ (s.last :: B)) ++ os3s)).Nodup := by
            rw [hshape1]
            exact List.nodup_cons.mpr ⟨hcnotinNew, hndNew⟩
          have hosS1 : ∀ o ∈ cidx :: (((os1s ++ A) ++ (s.last :: B)) ++ os3s),
              o < s.last + allocWidth s := by
            rw [hshape1]
            exact hsplitLt
          have hfw : ∀ j,
              (write_node (write_node { s with last := s.last + allocWidth s } right) left).store j =
              if j = nextIdx then some (Cell.node left)
              else if j = s.last then some (Cell.node right) else s.store j := by
            intro j
            simp only [write_node, hLidx, hRidx]
          obtain ⟨hsubLW, hsubRW⟩ := hWfun _ hfw
          have hgen : ∀ (X : STree K D) (P : Option (Cell K D)),
              (∀ j, X.store j = if j = cidx then P
                else if j = nextIdx then some (Cell.node left)
                else if j = s.last then some (Cell.node right) else s.store j) →
              Sub X m false nextIdx d' A ∧ Sub X m false s.last d' (s.last :: B) ∧
              Subs X m (cnext.take i) d' os1s ∧ Subs X m (cnext.drop (i + 1)) d' os3s ∧
              (∀ j, j < s.last → j ∉ cidx :: (os1s ++ os2s ++ os3s) →
                X.store j = s.store j) := by
            intro X P hX
            have hXW : ∀ o, o ≠ cidx → X.store o =
                (write_node (write_node { s with last := s.last + allocWidth s } right)
                  left).store o := by
              intro o ho
              rw [hX o, if_neg ho, hfw o]
            refine ⟨Sub_frame (fun o ho => hXW o (hAnc o ho)) hsubLW,
              Sub_frame (fun o ho => ?_) hsubRW,
              Subs_frame (fun o ho => ?_) hSubs1,
              Subs_frame (fun o ho => ?_) hSubs3, ?_⟩
            · rcases List.mem_cons.mp ho with h | h
              · exact hXW o (by omega)
              · exact hXW o (hBnc o h)
            · have h1 : o ≠ cidx := fun h => hcnotin2
                (h ▸ (List.mem_append.mpr (Or.inl (List.mem_append.mpr (Or.inl ho)))))
              have h2 : o ≠ nextIdx := fun h => hdisj12 ho (by rw [h]; exact hniMem)
              have h3 : o < s.last := hos o (List.mem_cons.mpr (Or.inr
                (List.mem_append.mpr (Or.inl (List.mem_append.mpr (Or.inl ho))))))
              rw [hX o, if_neg h1, if_neg h2, if_neg (by omega)]
            · have h1 : o ≠ cidx := fun h =>
                hcnotin2 (h ▸ (List.mem_append.mpr (Or.inr ho)))
              have h2 : o ≠ nextIdx := fun h =>
                hdisj13 (List.mem_append.mpr (Or.inr hniMem)) (by rw [← h]; exact ho)
              have h3 : o < s.last := hos o (List.mem_cons.mpr (Or.inr
                (List.mem_append.mpr (Or.inr ho))))
              rw [hX o, if_neg h1, if_neg h2, if_neg (by omega)]
            · intro j hj hjn
              have h1 : j ≠ cidx := fun h => hjn (by rw [h]; exact List.mem_cons_self _ _)
              have h2 : j ≠ nextIdx := fun h => hjn (by rw [h]; exact hmem2 nextIdx hniMem)
              rw [hX j, if_neg h1, if_neg h2, if_neg (by omega)]
          by_cases hr0 : item.1 < sep.1
          · -- routing 0: the probe sorts below the separator; descend into the
            -- shrunk left half
            set s2 := write_node (write_node (write_node
                { s with last := s.last + allocWidth s } right) left)
              ⟨⟨cidx, citems.length + 1, 0⟩, citems.take i ++ sep :: citems.drop i,
                (cnext.take i ++ [nextIdx]) ++ s.last :: cnext.drop (i + 1)⟩ with hs2def
            have hXeq : ∀ j, s2.store j = if j = cidx then
                some (Cell.node ⟨⟨cidx, citems.length + 1, 0⟩,
                  citems.take i ++ sep :: citems.drop i,
                  (cnext.take i ++ [nextIdx]) ++ s.last :: cnext.drop (i + 1)⟩)
                else if j = nextIdx then some (Cell.node left)
                else if j = s.last then some (Cell.node right) else s.store j := by
              intro j
              rw [hs2def]
              simp only [write_node, hLidx, hRidx]
            obtain ⟨hsubL2, hsubR2, hTake2, hDrop2, hXframe⟩ := hgen s2 _ hXeq
            have hs2l : s2.last = s.last + allocWidth s := by
              rw [hs2def]
              rfl
            have hstP : s2.store cidx = some (Cell.node ⟨⟨cidx, citems.length + 1, 0⟩,
                citems.take i ++ sep :: citems.drop i,
                (cnext.take i ++ [nextIdx]) ++ s.last :: cnext.drop (i + 1)⟩) := by
              rw [hXeq cidx, if_pos rfl]
            have hstPp : s2.store cidx = some (Cell.node ⟨⟨cidx,
                (citems.take i ++ sep :: citems.drop i).length, 0⟩,
                citems.take i ++ sep :: citems.drop i,
                (cnext.take i ++ [nextIdx]) ++ s.last :: cnext.drop (i + 1)⟩) := by
              rw [hinslen sep]
              exact hstP
            have hstL : s2.store left.head.idx = some (Cell.node left) := by
              rw [hLidx, hXeq nextIdx, if_neg hninc, if_pos rfl]
            obtain ⟨res, s3, Ap, heqrecL, hsubA0, hndAp, hltAp, hsubsetAp, hlastAp,
              hszAp, hrtAp, hgnAp, hframeAp⟩ :=
              ih s2 false left d' A item hsize hgone hstL (by rw [hLidx]; exact hsubL2)
                (by rw [hLlen]; omega) hndA
                (fun o ho => by rw [hs2l]; have := hAlt o ho; omega) (by omega)
            rw [hLidx] at hsubA0
            obtain ⟨hP, hPnd, hPlt, hPsub⟩ :=
              Sub_nd_splice hstPp (by rw [hkslen, hinslen sep])
                (by rw [hinslen sep]; exact hlo.trans (by omega))
                (by rw [hinslen sep]; omega) hgetP0
                (by rw [htk0]; exact hTake2)
                (by rw [hdr0]
                    exact Subs.cons s.last (cnext.drop (i + 1)) d' (s.last :: B) os3s
                      hsubR2 hDrop2)
                hndS0 hosS0 hsubA0 hndAp hltAp hsubsetAp hlastAp hframeAp
            refine ⟨res, s3, cidx :: (os1s ++ Ap ++ ((s.last :: B) ++ os3s)),
              ?_, hP, hPnd, hPlt, ?_, ?_, hszAp, hrtAp, hgnAp, ?_⟩
            · simp only [insertLoop, hbs, hget, hread, liftOpt, Bind.bind, Except.bind]
              rw [if_neg hfull, new_idx_of_gone_none s hgone]
              simp only [Bind.bind, Except.bind]
              rw [hsplit]
              simp only [Bind.bind, Except.bind]
              rw [if_pos hr0]
              simp only [reduceIte]
              rw [hvks, vinsert_eq citems i (if (0 : Nat) = 2 then item else sep) hi]
              simp only [liftOpt, Bind.bind, Except.bind]
              exact heqrecL
            · intro o ho
              rcases hPsub o ho with h | h
              · rcases List.mem_cons.mp h with h2 | h2
                · exact Or.inl (by rw [h2]; exact List.mem_cons_self _ _)
                · exact hsplitSub o (hshape0 ▸ h2)
              · right
                rw [hs2l] at h
                omega
            · have := hlastAp
              rw [hs2l] at this
              omega
            · intro j hj hjn
              have h2 := hframeAp j (by rw [hs2l]; omega)
                (fun hjA => hjn (hmem2 j (hA2 j hjA)))
              have h1 := hXframe j hj hjn
              exact h2.trans h1
          · by_cases hr1 : sep.1 < item.1
            · -- routing 1: the probe sorts above the separator; descend into the
              -- fresh right half
              set s2 := write_node (write_node (write_node
                  { s with last := s.last + allocWidth s } right) left)
                ⟨⟨cidx, citems.length + 1, 0⟩, citems.take i ++ sep :: citems.drop i,
                  (cnext.take i ++ [nextIdx]) ++ s.last :: cnext.drop (i + 1)⟩ with hs2def
              have hXeq : ∀ j, s2.store j = if j = cidx then
                  some (Cell.node ⟨⟨cidx, citems.length + 1, 0⟩,
                    citems.take i ++ sep :: citems.drop i,
                    (cnext.take i ++ [nextIdx]) ++ s.last :: cnext.drop (i + 1)⟩)
                  else if j = nextIdx then some (Cell.node left)
                  else if j = s.last then some (Cell.node right) else s.store j := by
                intro j
                rw [hs2def]
                simp only [write_node, hLidx, hRidx]
              obtain ⟨hsubL2, hsubR2, hTake2, hDrop2, hXframe⟩ := hgen s2 _ hXeq
              have hs2l : s2.last = s.last + allocWidth s := by
                rw [hs2def]
                rfl
              have hstP : s2.store cidx = some (Cell.node ⟨⟨cidx, citems.length + 1, 0⟩,
                  citems.take i ++ sep :: citems.drop i,
                  (cnext.take i ++ [nextIdx]) ++ s.last :: cnext.drop (i + 1)⟩) := by
                rw [hXeq cidx, if_pos rfl]
              have hstPp : s2.store cidx = some (Cell.node ⟨⟨cidx,
                  (citems.take i ++ sep :: citems.drop i).length, 0⟩,
                  citems.take i ++ sep :: citems.drop i,
                  (cnext.take i ++ [nextIdx]) ++ s.last :: cnext.drop (i + 1)⟩) := by
                rw [hinslen sep]
                exact hstP
              have hstR : s2.store right.head.idx = some (Cell.node right) := by
                rw [hRidx, hXeq s.last, if_neg (by omega), if_neg (by omega), if_pos rfl]
              obtain ⟨res, s3, Bp, heqrecR, hsubB0, hndBp, hltBp, hsubsetBp, hlastBp,
                hszBp, hrtBp, hgnBp, hframeBp⟩ :=
                ih s2 false right d' (s.last :: B) item hsize hgone hstR
                  (by rw [hRidx]; exact hsubR2) (by rw [hRlen]; omega)
                  (List.nodup_cons.mpr
                    ⟨fun hc => absurd (hBlt s.last hc) (lt_irrefl _), hndB⟩)
                  (fun o ho => by
                    rw [hs2l]
                    rcases List.mem_cons.mp ho with h | h
                    · omega
                    · have := hBlt o h
                      omega)
                  (by omega)
              rw [hRidx] at hsubB0
              obtain ⟨hP, hPnd, hPlt, hPsub⟩ :=
                Sub_nd_splice hstPp (by rw [hkslen, hinslen sep])
                  (by rw [hinslen sep]; exact hlo.trans (by omega))
                  (by rw [hinslen sep]; omega) hgetP1
                  (by rw [htk1]
                      simpa using Subs_append hTake2
                        (Subs.cons nextIdx [] d' A [] hsubL2 (Subs.nil d')))
                  (by rw [hdr1]; exact hDrop2)
                  hndS1 hosS1 hsubB0 hndBp hltBp hsubsetBp hlastBp hframeBp
              refine ⟨res, s3, cidx :: ((os1s ++ A) ++ Bp ++ os3s),
                ?_, hP, hPnd, hPlt, ?_, ?_, hszBp, hrtBp, hgnBp, ?_⟩
              · simp only [insertLoop, hbs, hget, hread, liftOpt, Bind.bind, Except.bind]
                rw [if_neg hfull, new_idx_of_gone_none s hgone]
                simp only [Bind.bind, Except.bind]
                rw [hsplit]
                simp only [Bind.bind, Except.bind]
                rw [if_neg hr0, if_pos hr1]
                simp only [reduceIte]
                rw [hvks, vinsert_eq citems i (if (1 : Nat) = 2 then item else sep) hi]
                simp only [liftOpt, Bind.bind, Except.bind]
                exact heqrecR
              · intro o ho
                rcases hPsub o ho with h | h
                · rcases List.mem_cons.mp h with h2 | h2
                  · exact Or.inl (by rw [h2]; exact List.mem_cons_self _ _)
                  · exact hsplitSub o (hshape1 ▸ h2)
                · right
                  rw [hs2l] at h
                  omega
              · have := hlastBp
                rw [hs2l] at this
                omega
              · intro j hj hjn
                have h2 := hframeBp j (by rw [hs2l]; omega) (fun hjB => by
                  rcases List.mem_cons.mp hjB with h | h
                  · omega
                  · exact hjn (hmem2 j (hB2 j h)))
                have h1 := hXframe j hj hjn
                exact h2.trans h1
            · -- routing 2: the separator compares equal; the parent takes the
              -- probe and the displaced separator is returned
              set s2 := write_node (write_node (write_node
                  { s with last := s.last + allocWidth s } right) left)
                ⟨⟨cidx, citems.length + 1, 0⟩, citems.take i ++ item :: citems.drop i,
                  (cnext.take i ++ [nextIdx]) ++ s.last :: cnext.drop (i + 1)⟩ with hs2def
              have hXeq : ∀ j, s2.store j = if j = cidx then
                  some (Cell.node ⟨⟨cidx, citems.length + 1, 0⟩,
                    citems.take i ++ item :: citems.drop i,
                    (cnext.take i ++ [nextIdx]) ++ s.last :: cnext.drop (i + 1)⟩)
                  else if j = nextIdx then some (Cell.node left)
                  else if j = s.last then some (Cell.node right) else s.store j := by
                intro j
                rw [hs2def]
                simp only [write_node, hLidx, hRidx]
              obtain ⟨hsubL2, hsubR2, hTake2, hDrop2, hXframe⟩ := hgen s2 _ hXeq
              have hs2l : s2.last = s.last + allocWidth s := by
                rw [hs2def]
                rfl
              have hstP : s2.store cidx = some (Cell.node ⟨⟨cidx, citems.length + 1, 0⟩,
                  citems.take i ++ item :: citems.drop i,
                  (cnext.take i ++ [nextIdx]) ++ s.last :: cnext.drop (i + 1)⟩) := by
                rw [hXeq cidx, if_pos rfl]
              have hstPp : s2.store cidx = some (Cell.node ⟨⟨cidx,
                  (citems.take i ++ item :: citems.drop i).length, 0⟩,
                  citems.take i ++ item :: citems.drop i,
                  (cnext.take i ++ [nextIdx]) ++ s.last :: cnext.drop (i + 1)⟩) := by
                rw [hinslen item]
                exact hstP
              obtain ⟨hP, hPnd, hPlt, hPsub⟩ :=
                Sub_nd_splice hstPp (by rw [hkslen, hinslen item])
                  (by rw [hinslen item]; exact hlo.trans (by omega))
                  (by rw [hinslen item]; omega) hgetP0
                  (by rw [htk0]; exact hTake2)
                  (by rw [hdr0]
                      exact Subs.cons s.last (cnext.drop (i + 1)) d' (s.last :: B) os3s
                        hsubR2 hDrop2)
                  hndS0 hosS0 hsubL2 hndA
                  (fun o ho => by rw [hs2l]; have := hAlt o ho; omega)
                  (fun o ho => Or.inl ho) (le_refl _) (fun j _ _ => rfl)
              refine ⟨Sum.inr sep, s2, cidx :: (os1s ++ A ++ ((s.last :: B) ++ os3s)),
                ?_, hP, hPnd, hPlt, ?_, ?_, rfl, rfl, hgone, hXframe⟩
              · rw [hs2def]
                simp only [insertLoop, hbs, hget, hread, liftOpt, Bind.bind, Except.bind]
                rw [if_neg hfull, new_idx_of_gone_none s hgone]
                simp only [Bind.bind, Except.bind]
                rw [hsplit]
                simp only [Bind.bind, Except.bind]
                rw [if_neg hr0, if_neg hr1]
                simp only [reduceIte]
                rw [hvks, vinsert_eq citems i item hi]
                simp only [liftOpt, Bind.bind, Except.bind]
                rfl
              · intro o ho
                rcases List.mem_cons.mp ho with h | h
                · exact Or.inl (by rw [h]; exact List.mem_cons_self _ _)
                · exact hsplitSub o (hshape0 ▸ h)
              · rw [hs2l]
                omega

/-- `insert_idx` preserves the whole-tree invariant whenever the fuel
strictly dominates `last` (and hence the tree depth). -/
theorem insert_idx_ok [LinearOrder K] {m : Nat} (hm : 2 ≤ m) (s : STree K D)
    (item : K × D) (fuel : Nat) (hinv : TreeInv s m) (hfuel : s.last + 1 ≤ fuel) :
    ∃ res s1, insert_idx s item fuel = .ok (res, s1) ∧ TreeInv s1 m := by
  obtain ⟨hsize, hgone, hroot⟩ := hinv
  have haw : allocWidth s = 24 + s.szV * s.size + 8 * (s.size + 1) := rfl
  cases hrt : s.root with
  | none =>
    refine ⟨.inl s.last, write_meta { write_node { s with last := s.last + allocWidth s }
      ⟨⟨s.last, 1, 1⟩, [item], []⟩ with root := some s.last }, ?_, ?_, hgone, ?_⟩
    · simp only [insert_idx, hrt, new_idx, hgone, Bind.bind, Except.bind]
    · exact hsize
    · refine Or.inr ⟨s.last, 0, [s.last], rfl, ?_, by simp, ?_⟩
      · refine Sub.lf true s.last [item] ?_ (le_refl 1) (by simp; omega)
        simp [write_meta, write_node]
      · intro o ho
        simp only [List.mem_singleton] at ho
        rw [ho]
        show s.last < s.last + allocWidth s
        omega
  | some ridx =>
    rw [hrt] at hroot
    rcases hroot with h | ⟨r, d, os, hr, hsub, hnd, hos⟩
    · simp at h
    · have hrr : ridx = r := by simpa using hr
      subst hrr
      obtain ⟨R, hRst, hRidx2, hRlen, hRlo, hRhi, hRshape⟩ := Sub_store hsub
      have hread : read_node s ridx = .ok R :=
        read_node_of_store s ridx R hRst hRidx2 (by omega)
      have hdbound : d + 1 ≤ s.last :=
        le_trans (Sub_os_length m d s true ridx os hsub)
          (nodup_lt_length_le os s.last hnd hos)
      by_cases hfullR : R.head.len = s.size
      · -- the root is full: split it and grow a new root above the halves
        have hRfull : R.head.len = m := by omega
        obtain ⟨sep, left, right, A, B, hsplit, hLidx, hLlen, hRidx3, hRlen3, hABeq,
          hWfun⟩ := split_child_pack (by omega) hsub hRst hRfull hos hnd
        have hridxlt : ridx < s.last := hos ridx (Sub_os_ne_nil hsub)
        have hW2eq : ∀ j, (write_node (write_node
            { s with last := s.last + allocWidth s + allocWidth s } left) right).store j =
            if j = ridx then some (Cell.node left)
            else if j = s.last then some (Cell.node right) else s.store j := by
          intro j
          simp only [write_node, hLidx, hRidx3]
          by_cases hj2 : j = s.last
          · have hj1 : j ≠ ridx := by omega
            simp [hj1, hj2, show s.last ≠ ridx from by omega]
          · by_cases hj1 : j = ridx
            · simp [hj1, hj2, show ridx ≠ s.last from by omega]
            · simp [hj1, hj2]
        obtain ⟨hsubLW, hsubRW⟩ := hWfun _ hW2eq
        have hndAB : (A ++ B).Nodup := by rw [← hABeq]; exact hnd
        have hosAB : ∀ o ∈ A ++ B, o < s.last := by
          intro o ho
          rw [← hABeq] at ho
          exact hos o ho
        obtain ⟨hndN, hmemN⟩ :=
          nodup_insert_fresh A B s.last s.last hndAB hosAB (le_refl _)
        have hnotmem : (s.last + allocWidth s) ∉ A ++ s.last :: B := fun hc => by
          rcases hmemN _ hc with h | h
          · have := hosAB _ h
            omega
          · omega
        have hndRoot : ((s.last + allocWidth s) :: (A ++ s.last :: B)).Nodup :=
          List.nodup_cons.mpr ⟨hnotmem, hndN⟩
        have hboundRoot : ∀ o ∈ (s.last + allocWidth s) :: (A ++ s.last :: B),
            o < s.last + allocWidth s + allocWidth s := by
          intro o ho
          rcases List.mem_cons.mp ho with h | h
          · omega
          · rcases hmemN o h with h2 | h2
            · have := hosAB o h2
              omega
            · omega
        have hbuild : ∀ y : K × D,
            (write_meta { write_node (write_node (write_node
                { s with last := s.last + allocWidth s + allocWidth s } left) right)
                ⟨⟨s.last + allocWidth s, 1, 0⟩, [y], [ridx, s.last]⟩
                with root := some (s.last + allocWidth s) }).store
                (s.last + allocWidth s) =
              some (Cell.node ⟨⟨s.last + allocWidth s, 1, 0⟩, [y], [ridx, s.last]⟩) ∧
            Sub (write_meta { write_node (write_node (write_node
                { s with last := s.last + allocWidth s + allocWidth s } left) right)
                ⟨⟨s.last + allocWidth s, 1, 0⟩, [y], [ridx, s.last]⟩
                with root := some (s.last + allocWidth s) }) m true
              (s.last + allocWidth s) (d + 1)
              ((s.last + allocWidth s) :: (A ++ s.last :: B)) := by
          intro y
          have hS4eq : ∀ j, (write_meta { write_node (write_node (write_node
              { s with last := s.last + allocWidth s + allocWidth s } left) right)
              ⟨⟨s.last + allocWidth s, 1, 0⟩, [y], [ridx, s.last]⟩
              with root := some (s.last + allocWidth s) }).store j =
              if j = s.last + allocWidth s then
                some (Cell.node ⟨⟨s.last + allocWidth s, 1, 0⟩, [y], [ridx, s.last]⟩)
              else (write_node (write_node
                { s with last := s.last + allocWidth s + allocWidth s } left)
                right).store j := by
            intro j
            simp only [write_meta, write_node]
          have hstRoot : (write_meta { write_node (write_node (write_node
              { s with last := s.last + allocWidth s + allocWidth s } left) right)
              ⟨⟨s.last + allocWidth s, 1, 0⟩, [y], [ridx, s.last]⟩
              with root := some (s.last + allocWidth s) }).store (s.last + allocWidth s) =
              some (Cell.node ⟨⟨s.last + allocWidth s, 1, 0⟩, [y], [ridx, s.last]⟩) := by
            rw [hS4eq (s.last + allocWidth s), if_pos rfl]
          have hLs4 : Sub _ m false ridx d A := Sub_frame (fun o ho => by
            rw [hS4eq o, if_neg (by have := hosAB o (List.mem_append.mpr (Or.inl ho)); omega)])
            hsubLW
          have hRs4 : Sub _ m false s.last d (s.last :: B) := Sub_frame (fun o ho => by
            rw [hS4eq o, if_neg (by
              rcases List.mem_cons.mp ho with h | h
              · omega
              · have := hosAB o (List.mem_append.mpr (Or.inr h))
                omega)]) hsubRW
          refine ⟨hstRoot, ?_⟩
          have hkids := Subs.cons ridx [s.last] d A ((s.last :: B) ++ []) hLs4
            (Subs.cons s.last [] d (s.last :: B) [] hRs4 (Subs.nil d))
          have hsubRoot := Sub.nd true (s.last + allocWidth s) [y] [ridx, s.last] d
            (A ++ ((s.last :: B) ++ []))
            (by rw [show ([y] : List (K × D)).length = 1 from rfl]; exact hstRoot)
            (by simp) (le_refl 1) (by simp; omega) hkids
          simpa using hsubRoot
        by_cases hfin : item.1 = sep.1
        · refine ⟨.inr sep, write_meta { write_node (write_node (write_node
              { s with last := s.last + allocWidth s + allocWidth s } left) right)
              ⟨⟨s.last + allocWidth s, 1, 0⟩, [item], [ridx, s.last]⟩
              with root := some (s.last + allocWidth s) }, ?_, hsize, hgone,
            Or.inr ⟨s.last + allocWidth s, d + 1, _, rfl, (hbuild item).2,
              hndRoot, hboundRoot⟩⟩
          simp only [insert_idx, hrt, hread, Bind.bind, Except.bind]
          rw [if_pos hfullR, new_idx_of_gone_none s hgone]
          simp only [Bind.bind, Except.bind]
          rw [new_idx_of_gone_none { s with last := s.last + allocWidth s } hgone]
          simp only [Bind.bind, Except.bind]
          rw [hsplit]
          simp only [Bind.bind, Except.bind]
          rw [hRidx2]
          simp only [if_pos hfin]
          rfl
        · obtain ⟨res, s5, os5, heq5, hsub5, hnd5, hlt5, hss5, hll5, hsz5, hrt5,
            hgn5, hfr5⟩ :=
            insertLoop_ok (by omega) fuel
              (write_meta { write_node (write_node (write_node
                { s with last := s.last + allocWidth s + allocWidth s } left) right)
                ⟨⟨s.last + allocWidth s, 1, 0⟩, [sep], [ridx, s.last]⟩
                with root := some (s.last + allocWidth s) }) true
              ⟨⟨s.last + allocWidth s, 1, 0⟩, [sep], [ridx, s.last]⟩ (d + 1)
              ((s.last + allocWidth s) :: (A ++ s.last :: B)) item
              hsize hgone (hbuild sep).1 (hbuild sep).2
              (by show (1 : Nat) < m; omega) hndRoot hboundRoot (by omega)
          refine ⟨res, s5, ?_, hsz5.trans hsize, hgn5,
            Or.inr ⟨s.last + allocWidth s, d + 1, os5, by rw [hrt5]; rfl, hsub5,
              hnd5, hlt5⟩⟩
          simp only [insert_idx, hrt, hread, Bind.bind, Except.bind]
          rw [if_pos hfullR, new_idx_of_gone_none s hgone]
          simp only [Bind.bind, Except.bind]
          rw [new_idx_of_gone_none { s with last := s.last + allocWidth s } hgone]
          simp only [Bind.bind, Except.bind]
          rw [hsplit]
          simp only [Bind.bind, Except.bind]
          rw [hRidx2]
          simp only [if_neg hfin]
          exact heq5
      · obtain ⟨res, s1, os1, heq, hsub1, hnd1, hlt1, hsubset1, hlast1, hsz1,
          hrt1, hgn1, hframe1⟩ :=
          insertLoop_ok (by omega) fuel s true R d os item hsize hgone
            (by rw [hRidx2]; exact hRst) (by rw [hRidx2]; exact hsub) (by omega)
            hnd hos (by omega)
        rw [hRidx2] at hsub1
        refine ⟨res, s1, ?_, hsz1.trans hsize, hgn1,
          Or.inr ⟨ridx, d, os1, by rw [hrt1, hrt], hsub1, hnd1, hlt1⟩⟩
        simp only [insert_idx, hrt, hread, Bind.bind, Except.bind]
        rw [if_neg hfullR]
        exact heq

/-- `insert` preserves the whole-tree invariant. -/
theorem insert_ok [LinearOrder K] {m : Nat} (hm : 2 ≤ m) (s : STree K D) (item : K × D)
    (fuel : Nat) (hinv : TreeInv s m) (hfuel : s.last + 1 ≤ fuel) :
    ∃ res s1, insert s item fuel = .ok (res, s1) ∧ TreeInv s1 m := by
  obtain ⟨res, s1, heq, hinv1⟩ := insert_idx_ok hm s item fuel hinv hfuel
  cases res with
  | inl l => exact ⟨none, s1, by simp [insert, heq], hinv1⟩
  | inr prev => exact ⟨some prev, s1, by simp [insert, heq], hinv1⟩

/-- Any insert/get sequence preserves the whole-tree invariant and never
fails. -/
theorem runOps_ok [LinearOrder K] {m : Nat} (hm : 2 ≤ m) :
    ∀ (ops : List (Sum (K × D) (K × D))) (s : STree K D), TreeInv s m →
    ∃ s1, runOps s ops = .ok s1 ∧ TreeInv s1 m := by
  intro ops
  induction ops with
  | nil =>
    intro s hs
    exact ⟨s, rfl, hs⟩
  | cons op rest ihr =>
    intro s hs
    cases op with
    | inl item =>
      obtain ⟨res, s1, heq, hinv1⟩ := insert_ok hm s item (s.last + 2) hs (by omega)
      obtain ⟨s2, heq2, hinv2⟩ := ihr s1 hinv1
      refine ⟨s2, ?_, hinv2⟩
      simp only [runOps, runOp, heq]
      exact heq2
    | inr item =>
      obtain ⟨s2, heq2, hinv2⟩ := ihr s hs
      refine ⟨s2, ?_, hinv2⟩
      simp only [runOps, runOp]
      exact heq2

/-!
## Claims

Each claim of the specification audit gets one theorem below.
-/

/-- C7: reading a node at offset `idx` fails with the corruption error
(`InvalidData`) exactly when the stored header's `idx` field differs from
the requested offset or the stored `len` exceeds the tree's order, and these
are the only failure conditions: whenever the (always-succeeding) byte-store
operations return and neither condition holds, the read succeeds. -/
theorem read_node_corruption_characterization (V : Type) (c : Bytes.KeyCodec V)
    (size : Nat) (b : Bytes.BStore) (idx : Nat) :
    (Bytes.bread_node c size b idx = .error .invalidData ↔
      (Bytes.decNodeHead (Bytes.readBytes b.data idx 24)).idx ≠ idx ∨
        size < (Bytes.decNodeHead (Bytes.readBytes b.data idx 24)).len) ∧
    ((Bytes.bread_node c size b idx).isOk = true ↔
      ((Bytes.decNodeHead (Bytes.readBytes b.data idx 24)).idx = idx ∧
        (Bytes.decNodeHead (Bytes.readBytes b.data idx 24)).len ≤ size)) := by
  set hd := Bytes.decNodeHead (Bytes.readBytes b.data idx 24) with hhd
  have hrw : Bytes.bread_node c size b idx =
      (if hd.idx ≠ idx then .error .invalidData
       else if size < hd.len then .error .invalidData
       else
         let vecLen := (if hd.leaf = 0 then hd.len else size) * c.width
         let ib := Bytes.readBytes b.data (idx + 24) vecLen
         let items := ((Bytes.chunksOf c.width ib).take hd.len).map c.dec
         if hd.leaf = 0 then
           .ok (⟨hd, items,
                  (Bytes.chunksOf 8 (Bytes.readBytes b.data (idx + 24 + vecLen)
                    ((hd.len + 1) * 8))).map Bytes.decLE⟩,
                ⟨b.data, idx + 24 + vecLen + (hd.len + 1) * 8⟩)
         else
           .ok (⟨hd, items, []⟩, ⟨b.data, idx + 24 + vecLen⟩)) := rfl
  rw [hrw]
  by_cases h1 : hd.idx = idx
  · by_cases h2 : size < hd.len
    · simp [h1, h2, Except.isOk, Except.toBool]
    · by_cases h3 : hd.leaf = 0 <;>
        simp [h1, h2, h3, Except.isOk, Except.toBool] <;> omega
  · simp [h1, Except.isOk, Except.toBool]

/-- C8 counterexample: on a store holding an internal node with `len = 1`
(order 3, 8-byte keys) written by the translated `write_node`, the
translated reader recovers the written child offsets `[7, 9]`, while a
reader behaving as the spec sentence describes (seeking past a full slot's
worth of key space for internal nodes before the child-offset read) would
decode the child offsets `[0, 0]` from the wrong position: the claim's
description of the reader is false. -/
theorem read_node_seek_counterexample :
    (Bytes.bread_node Bytes.u64Codec 3 Bytes.c8store 100).map (fun x => x.1.next) =
      .ok [7, 9] ∧
    (Bytes.bread_node_spec Bytes.u64Codec 3 Bytes.c8store 100).map (fun x => x.1.next) =
      .ok [0, 0] := by
  constructor <;> rfl

/-- C6: `read_gone` never consults the store: it reads zero bytes (the
destination `Vec` has length zero) and decodes the uninitialized buffer
contents instead.  On a store where the free cell at offset 48 was written
with `next = some 4242`, and with zeroed uninitialized memory, the
allocator's free-cell read yields `next = none`, not the stored
`some 4242`, although the stored bytes do decode to the written cell. -/
theorem read_gone_ignores_store :
    (∀ (b : Bytes.BStore) (junk : List Nat) (idx : Nat),
      (Bytes.bread_gone b junk idx).1 = Bytes.decGone junk) ∧
    (Bytes.bread_gone Bytes.c6store (List.replicate 24 0) 48).1.next = none ∧
    Bytes.decGone (Bytes.readBytes Bytes.c6store.data 48 24) = ⟨48, some 4242⟩ := by
  refine ⟨fun b junk idx => rfl, rfl, ?_⟩
  decide

/-- C8 amended: writing a leaf stores only the header and the `len` keys
(no child-offset region: every byte at or past `idx + 24 + len·width` is
untouched), and reading a written node back succeeds and recovers it
exactly, with the reader consuming, after the header, `len` keys' worth of
key space for an internal node — the child offsets are read immediately
after the `len` keys, not after a full slot's worth — and a full `size`
keys' worth for a leaf (keeping the first `len` keys and skipping the
child-offset region entirely), as the final cursor positions show. -/
theorem node_codec_roundtrip (V : Type) (c : Bytes.KeyCodec V) (size : Nat)
    (d : Nat → Nat) (pos0 : Nat) (n : Bytes.RawNode V)
    (hw : 0 < c.width)
    (hencw : ∀ v ∈ n.items, (c.enc v).length = c.width)
    (hdec : ∀ v ∈ n.items, c.dec (c.enc v) = v)
    (hidx : n.head.idx < 256 ^ 8) (hlen : n.head.len < 256 ^ 8) (hleaf : n.head.leaf < 256)
    (hlensize : n.head.len ≤ size)
    (hitems : n.items.length = n.head.len)
    (hnextlen : n.head.leaf = 0 → n.next.length = n.head.len + 1)
    (hnextnil : n.head.leaf ≠ 0 → n.next = [])
    (hnextlt : ∀ x ∈ n.next, x < 256 ^ 8) :
    (n.head.leaf ≠ 0 → ∀ j, j < n.head.idx ∨ n.head.idx + 24 + n.items.length * c.width ≤ j →
      (Bytes.bwrite_node c ⟨d, pos0⟩ n).data j = d j) ∧
    Bytes.bread_node c size (Bytes.bwrite_node c ⟨d, pos0⟩ n) n.head.idx =
      .ok (n, ⟨(Bytes.bwrite_node c ⟨d, pos0⟩ n).data,
        if n.head.leaf = 0 then n.head.idx + 24 + n.head.len * c.width + (n.head.len + 1) * 8
        else n.head.idx + 24 + size * c.width⟩) := by
  obtain ⟨⟨idx, len, leaf⟩, items, next⟩ := n
  simp only at hencw hdec hidx hlen hleaf hlensize hitems hnextlen hnextnil hnextlt
  have hitemsBlen : (items.flatMap c.enc).length = len * c.width := by
    rw [Bytes.flatMap_length_const c.enc items c.width hencw, hitems]
  have hhdB : Bytes.readBytes (Bytes.writeBytes d idx (Bytes.encNodeHead ⟨idx, len, leaf⟩)) idx 24 =
      Bytes.encNodeHead ⟨idx, len, leaf⟩ := by
    have h0 := Bytes.readBytes_writeBytes_self d idx (Bytes.encNodeHead ⟨idx, len, leaf⟩)
    rwa [Bytes.encNodeHead_length] at h0
  have hhd : Bytes.decNodeHead (Bytes.encNodeHead ⟨idx, len, leaf⟩) = ⟨idx, len, leaf⟩ :=
    Bytes.decNodeHead_encNodeHead ⟨idx, len, leaf⟩ hidx hlen hleaf
  by_cases hlf : leaf = 0
  · -- internal node: header, len keys, len+1 child offsets
    subst hlf
    have hnl : next.length = len + 1 := hnextlen rfl
    have hnextBlen : (next.flatMap (Bytes.encLE 8)).length = (len + 1) * 8 := by
      rw [Bytes.flatMap_length_const _ next 8 fun x _ => Bytes.encLE_length 8 x, hnl]
    have hWrite : Bytes.bwrite_node c ⟨d, pos0⟩ ⟨⟨idx, len, 0⟩, items, next⟩ =
        ⟨Bytes.writeBytes
           (Bytes.writeBytes (Bytes.writeBytes d idx (Bytes.encNodeHead ⟨idx, len, 0⟩))
             (idx + 24) (items.flatMap c.enc))
           (idx + 24 + len * c.width) (next.flatMap (Bytes.encLE 8)),
         idx + 24 + len * c.width + (len + 1) * 8⟩ := by
      simp only [Bytes.bwrite_node, Bytes.bwrite, Bytes.bseek, Bytes.encNodeHead_length,
        hitemsBlen, hnextBlen]
      rw [if_pos (by omega)]
    rw [hWrite]
    refine ⟨fun hne => absurd rfl hne, ?_⟩
    rw [Bytes.bread_node_expand]
    have hr1 : Bytes.readBytes
        (Bytes.writeBytes
          (Bytes.writeBytes (Bytes.writeBytes d idx (Bytes.encNodeHead ⟨idx, len, 0⟩))
            (idx + 24) (items.flatMap c.enc))
          (idx + 24 + len * c.width) (next.flatMap (Bytes.encLE 8))) idx 24 =
        Bytes.encNodeHead ⟨idx, len, 0⟩ := by
      rw [Bytes.readBytes_writeBytes_of_right _ _ _ _ _ (by omega),
        Bytes.readBytes_writeBytes_of_right _ _ _ _ _ (by omega), hhdB]
    simp only [hr1, hhd]
    rw [if_neg (by simp), if_neg (by omega)]
    simp only [reduceIte]
    have hr2 : Bytes.readBytes
        (Bytes.writeBytes
          (Bytes.writeBytes (Bytes.writeBytes d idx (Bytes.encNodeHead ⟨idx, len, 0⟩))
            (idx + 24) (items.flatMap c.enc))
          (idx + 24 + len * c.width) (next.flatMap (Bytes.encLE 8))) (idx + 24) (len * c.width) =
        items.flatMap c.enc := by
      rw [Bytes.readBytes_writeBytes_of_right _ _ _ _ _ (by omega)]
      have h0 := Bytes.readBytes_writeBytes_self
        (Bytes.writeBytes d idx (Bytes.encNodeHead ⟨idx, len, 0⟩)) (idx + 24)
        (items.flatMap c.enc)
      rwa [hitemsBlen] at h0
    have hr3 : Bytes.readBytes
        (Bytes.writeBytes
          (Bytes.writeBytes (Bytes.writeBytes d idx (Bytes.encNodeHead ⟨idx, len, 0⟩))
            (idx + 24) (items.flatMap c.enc))
          (idx + 24 + len * c.width) (next.flatMap (Bytes.encLE 8)))
          (idx + 24 + len * c.width) ((len + 1) * 8) =
        next.flatMap (Bytes.encLE 8) := by
      have h0 := Bytes.readBytes_writeBytes_self
        (Bytes.writeBytes (Bytes.writeBytes d idx (Bytes.encNodeHead ⟨idx, len, 0⟩))
          (idx + 24) (items.flatMap c.enc))
        (idx + 24 + len * c.width) (next.flatMap (Bytes.encLE 8))
      rwa [hnextBlen] at h0
    rw [hr2, hr3]
    have hitemsDec : ((Bytes.chunksOf c.width (items.flatMap c.enc)).take len).map c.dec =
        items := by
      rw [Bytes.chunksOf_flatMap c.width hw c.enc items hencw,
        List.take_of_length_le (by simp [hitems]), List.map_map]
      exact (List.map_congr_left fun x hx => hdec x hx).trans (List.map_id items)
    have hnextDec : (Bytes.chunksOf 8 (next.flatMap (Bytes.encLE 8))).map Bytes.decLE = next := by
      rw [Bytes.chunksOf_flatMap 8 (by omega) _ next fun x _ => Bytes.encLE_length 8 x]
      rw [List.map_map]
      exact (List.map_congr_left fun x hx =>
        Bytes.decLE_encLE_of_lt 8 x (hnextlt x hx)).trans (List.map_id next)
    rw [hitemsDec, hnextDec]
  · -- leaf node: header and len keys only; no child write, no child read
    have hnil : next = [] := hnextnil hlf
    subst hnil
    have hWrite : Bytes.bwrite_node c ⟨d, pos0⟩ ⟨⟨idx, len, leaf⟩, items, []⟩ =
        ⟨Bytes.writeBytes (Bytes.writeBytes d idx (Bytes.encNodeHead ⟨idx, len, leaf⟩))
           (idx + 24) (items.flatMap c.enc),
         idx + 24 + len * c.width⟩ := by
      simp only [Bytes.bwrite_node, Bytes.bwrite, Bytes.bseek, Bytes.encNodeHead_length,
        hitemsBlen]
      rw [if_neg (by simp)]
    rw [hWrite]
    constructor
    · intro _ j hj
      simp only at hj
      rw [hitems] at hj
      simp only [Bytes.writeBytes]
      rw [if_neg (by rw [hitemsBlen]; omega),
        if_neg (by rw [Bytes.encNodeHead_length]; omega)]
    · rw [Bytes.bread_node_expand]
      have hr1 : Bytes.readBytes
          (Bytes.writeBytes (Bytes.writeBytes d idx (Bytes.encNodeHead ⟨idx, len, leaf⟩))
            (idx + 24) (items.flatMap c.enc)) idx 24 =
          Bytes.encNodeHead ⟨idx, len, leaf⟩ := by
        rw [Bytes.readBytes_writeBytes_of_right _ _ _ _ _ (by omega), hhdB]
      simp only [hr1, hhd]
      rw [if_neg (by simp), if_neg (by omega), if_neg hlf]
      simp only [if_neg hlf]
      have hr2 : Bytes.readBytes
          (Bytes.writeBytes (Bytes.writeBytes d idx (Bytes.encNodeHead ⟨idx, len, leaf⟩))
            (idx + 24) (items.flatMap c.enc)) (idx + 24) (size * c.width) =
          items.flatMap c.enc ++
            Bytes.readBytes (Bytes.writeBytes d idx (Bytes.encNodeHead ⟨idx, len, leaf⟩))
              (idx + 24 + len * c.width) ((size - len) * c.width) := by
        have hsplit : size * c.width = len * c.width + (size - len) * c.width := by
          have : len * c.width + (size - len) * c.width = (len + (size - len)) * c.width := by ring
          rw [this]
          congr 1
          omega
        rw [hsplit, Bytes.readBytes_add]
        congr 1
        · have h0 := Bytes.readBytes_writeBytes_self
            (Bytes.writeBytes d idx (Bytes.encNodeHead ⟨idx, len, leaf⟩)) (idx + 24)
            (items.flatMap c.enc)
          rwa [hitemsBlen] at h0
        · rw [Bytes.readBytes_writeBytes_of_left _ _ _ _ _ (by rw [hitemsBlen])]
      rw [hr2]
      have hitemsDec : ((Bytes.chunksOf c.width (items.flatMap c.enc ++
          Bytes.readBytes (Bytes.writeBytes d idx (Bytes.encNodeHead ⟨idx, len, leaf⟩))
            (idx + 24 + len * c.width) ((size - len) * c.width))).take len).map c.dec =
          items := by
        rw [← hitems, Bytes.chunksOf_flatMap_take c.width hw c.enc items hencw, List.map_map]
        exact (List.map_congr_left fun x hx => hdec x hx).trans (List.map_id items)
      rw [hitemsDec]

/-- Witness for the C8 amended round-trip at a concrete internal node
(u64 keys, order 3, node at offset 100 with one key and two children):
reading back the written node recovers it, the cursor ending at
`100 + 24 + 1·8 + 2·8 = 148` — right after the one key and the two child
offsets. -/
theorem node_codec_roundtrip_witness :
    Bytes.bread_node Bytes.u64Codec 3
        (Bytes.bwrite_node Bytes.u64Codec ⟨fun _ => 0, 0⟩ ⟨⟨100, 1, 0⟩, [5], [7, 9]⟩) 100 =
      .ok (⟨⟨100, 1, 0⟩, [5], [7, 9]⟩,
        ⟨(Bytes.bwrite_node Bytes.u64Codec ⟨fun _ => 0, 0⟩ ⟨⟨100, 1, 0⟩, [5], [7, 9]⟩).data,
         148⟩) :=
  (node_codec_roundtrip Nat Bytes.u64Codec 3 (fun _ => 0) 0 ⟨⟨100, 1, 0⟩, [5], [7, 9]⟩
    (by decide) (by decide) (by decide) (by decide) (by decide) (by decide) (by decide)
    (by decide) (by decide) (by decide) (by decide)).2

/-- C2: removing a key held in an internal node can panic instead of
swapping in the in-order predecessor.  On the reachable order-4 state
`c2s` — root `[30]` at 240 (an internal node, `leaf = 0`) over leaves
`[10]` and `[40]` — the key 30 is stored at the internal slot and `get`
finds it, yet `remove 30` panics: both children are deficient, the merge
into the right sibling collapses the root, and the final pending-swap
`Vec::swap(item_index, len)` indexes the detached empty root out of
bounds. -/
theorem remove_internal_slot_panics :
    c2s.root = some 240 ∧
    read_node c2s 240 = .ok ⟨⟨240, 1, 0⟩, [(30, ())], [48, 144]⟩ ∧
    get c2s (30, ()) 20 = .ok (some (30, ())) ∧
    remove c2s (30, ()) 20 = .error .panicked :=
  ⟨rfl, rfl, rfl, rfl⟩

/-- C5: `delete_node`'s end-of-store test uses the width
`24 + szV * (2 * size + 1)`, not the allocation width
`24 + szV * size + 8 * (size + 1)`.  With the real line index's key width
(`size_of::<IndexItem>() = 88`) and order 6, freeing the most recently
allocated slot (at `last - allocWidth = 656`) does not decrement `last` as
the claim requires — it pushes the slot onto the free list instead.  With
the 8-byte keys of the unit tests the two widths coincide and the fast
path fires. -/
theorem delete_node_width_mismatch :
    allocWidth c5s = 608 ∧
    deleteWidth c5s = 1168 ∧
    c5s.last - allocWidth c5s = 656 ∧
    (delete_node c5s 656).last = 1264 ∧
    (delete_node c5s 656).gone = some 656 ∧
    (delete_node c5s 656).store 656 = some (.free ⟨656, none⟩) ∧
    allocWidth c5s8 = deleteWidth c5s8 ∧
    (delete_node c5s8 48).last = 48 ∧
    (delete_node c5s8 48).gone = none :=
  ⟨rfl, rfl, rfl, rfl, rfl, rfl, rfl, rfl, rfl⟩

/-- C1: on the well-formed state `c1s` — full order-3 root leaf, one slot
on the free list, key 15 absent — `insert 15` does not return `none` and
leave `contains 15` true: it never terminates (it errors with `fuel` for
every fuel).  The root split draws two slots from the allocator; because
`read_gone` reads zero bytes, the second allocation comes from
uninitialized memory, here decoding to the old root offset 48, so the new
root is written over the old root with itself as its own first child and
the descent cycles. -/
theorem insert_diverges_on_free_list_state :
    get c1s (15, ()) 10 = .ok none ∧
    read_node c1s 48 = .ok ⟨⟨48, 3, 1⟩, [(10, ()), (20, ()), (30, ())], []⟩ ∧
    c1s.gone = some 128 ∧
    (∀ fuel, insert c1s (15, ()) fuel = .error .fuel) := by
  refine ⟨rfl, rfl, rfl, ?_⟩
  intro fuel
  induction fuel with
  | zero => rfl
  | succ k ih =>
    exact (show insert c1s ((15 : Nat), ()) (k + 1) = insert c1s ((15 : Nat), ()) k from
      rfl).trans ih

/-- C4 counterexample: on the full order-3 root leaf `[10, 20, 30]`
(`last = 128`, root at 48, key 40 absent), `insert 40; remove 40` does
not restore the state: the insert splits the root (allocating two slots
and moving the root), and the remove leaves the split in place — `last`
ends at 288 and the root at 208, on disk as well. -/
theorem insert_remove_not_inverse :
    c4pre.last = 128 ∧
    c4pre.dhead.last = 128 ∧
    c4pre.root = some 48 ∧
    get c4pre (40, ()) 10 = .ok none ∧
    (do
      let (_, s1) ← insert c4pre ((40 : Nat), ()) 20
      let (r, s2) ← remove s1 ((40 : Nat), ()) 20
      Except.ok (r, s2.last, s2.root, s2.dhead.last)) =
      .ok (some ((40 : Nat), ()), 288, some 208, 288) :=
  ⟨rfl, rfl, rfl, rfl, rfl⟩

/-- C4 amended: on a tree whose root is a leaf with spare capacity and
whose keys are strictly sorted, none equal to `k`, `insert k` touches only
that leaf (returning `none`) and the following `remove k` returns `some k`
and restores the state exactly — header fields, on-disk header and every
stored record included. -/
theorem insert_remove_inverse_on_leaf_root [LinearOrder K] (s : STree K D) (r : Nat)
    (items : List (K × D)) (k : K × D) (fuel : Nat)
    (hroot : s.root = some r)
    (hstore : s.store r = some (.node ⟨⟨r, items.length, 1⟩, items, []⟩))
    (hroom : items.length < s.size)
    (habsent : ∀ x ∈ items, x.1 ≠ k.1)
    (hsorted : items.Pairwise fun a b => a.1 < b.1) :
    insert s k (fuel + 1) =
      .ok (none, write_node s
        ⟨⟨r, items.length + 1, 1⟩,
         List.insertIdx (items.countP fun x => decide (x.1 < k.1)) k items, []⟩) ∧
    remove (write_node s
        ⟨⟨r, items.length + 1, 1⟩,
         List.insertIdx (items.countP fun x => decide (x.1 < k.1)) k items, []⟩)
      k (fuel + 1) = .ok (some k, s) := by
  have hi : (items.countP fun x => decide (x.1 < k.1)) ≤ items.length :=
    List.countP_le_length _
  have hszle : ¬ s.size < items.length := by omega
  have hbs := rustBinarySearch_not_mem items k habsent
  constructor
  · -- the insert places k into the leaf at position countP
    simp only [insert, insert_idx, hroot, read_node, hstore]
    rw [if_neg (by simp), if_neg hszle]
    have hnefull : ¬ (items.length = s.size) := by omega
    simp [hnefull, insertLoop, hbs, vinsert, hi, liftOpt, Bind.bind, Except.bind]
  · -- the remove takes it back out and rewrites the original leaf
    set i := items.countP fun x => decide (x.1 < k.1) with hidef
    set s1 := write_node s ⟨⟨r, items.length + 1, 1⟩, List.insertIdx i k items, []⟩ with hs1
    have hs1root : s1.root = some r := hroot
    have hs1read : read_node s1 r =
        .ok ⟨⟨r, items.length + 1, 1⟩, List.insertIdx i k items, []⟩ := by
      rw [hs1]
      simp [read_node, write_node]
      omega
    have hlen1 : (List.insertIdx i k items).length = items.length + 1 :=
      List.length_insertIdx _ _ hi
    have hne : ¬ (List.insertIdx i k items).isEmpty = true := by
      rw [List.isEmpty_iff_length_eq_zero, hlen1]
      omega
    have hbs1 : rustBinarySearch (List.insertIdx i k items) k = .inl i := by
      have hcount : ((List.insertIdx i k items).countP fun x => decide (x.1 < k.1)) = i := by
        rw [countP_insertIdx _ _ _ _ hi]
        simp [lt_irrefl]
      unfold rustBinarySearch
      simp only [hcount, get?_insertIdx_self items i k hi]
      simp
    have hget : (List.insertIdx i k items).get? i = some k := get?_insertIdx_self items i k hi
    simp only [remove, hs1root, hs1read, Bind.bind, Except.bind]
    rw [if_neg hne]
    simp only [removeLoop]
    rw [if_neg (by simp)]
    simp only [hbs1, vremove, hget, List.eraseIdx_insertIdx, liftOpt,
      Bind.bind, Except.bind]
    simp only [Nat.add_sub_cancel]
    have hfinal : write_node s1 ⟨⟨r, items.length, 1⟩, items, []⟩ = s := by
      obtain ⟨sz, szv, lst, rt, gn, st, dh, jk, jcc⟩ := s
      simp only [hs1, write_node]
      congr 1
      funext j
      by_cases hj : j = r
      · subst hj
        simp only [if_pos rfl]
        exact hstore.symm
      · simp only [if_neg hj]
    rw [hfinal]

/-- Witness for the C4 amended statement on the order-6 tree holding the
single key 1 in its root leaf: inserting 2 and removing it again restores
the state exactly. -/
theorem insert_remove_inverse_on_leaf_root_witness :
    insert c10s ((2 : Nat), ()) 6 =
      .ok (none, write_node c10s ⟨⟨48, 2, 1⟩, [(1, ()), (2, ())], []⟩) ∧
    remove (write_node c10s ⟨⟨48, 2, 1⟩, [(1, ()), (2, ())], []⟩) ((2 : Nat), ()) 6 =
      .ok (some (2, ()), c10s) :=
  insert_remove_inverse_on_leaf_root c10s 48 [(1, ())] ((2 : Nat), ()) 5
    rfl rfl (by decide) (by decide) (by decide)

/-- C9: building the line index over five lines of identical hash `h`
(P = 4 places per record, tree order 6) upserts the first four occurrences
into the single record at `(h, 0)`, growing its count to 4 and its places
to the line numbers 0..3; the fifth occurrence finds `count = 4`, bumps
`order` and inserts a fresh record at `(h, 1)` with count 1 holding line
4; `(h, 2)` has no record. -/
theorem order_chain_overflow (h : Nat) :
    (do
      let (t, n) ← buildIndex [h, h, h, h, h]
      let g0 ← get t (⟨h, 0⟩, (0, List.replicate 4 (0, 0))) 20
      let g1 ← get t (⟨h, 1⟩, (0, List.replicate 4 (0, 0))) 20
      let g2 ← get t (⟨h, 2⟩, (0, List.replicate 4 (0, 0))) 20
      Except.ok (n, g0, g1, g2)) =
    .ok (5, some (⟨h, 0⟩, (4, [(0, 0), (1, 0), (2, 0), (3, 0)])),
            some (⟨h, 1⟩, (1, [(4, 0), (0, 0), (0, 0), (0, 0)])), none) := by
  simp [buildIndex, addLines, addLine, mergeChain, newTree, write_meta, get, getLoop,
    insert, insert_idx, insertLoop, read_node, write_node, new_idx, rustBinarySearch,
    swapOut, vswap, vpop, vinsert, liftOpt, HKey.lt_iff, HKey.mk.injEq,
    Bind.bind, Except.bind, allocWidth,
    show (20 : Nat) = 19 + 1 from rfl, show (19 : Nat) = 18 + 1 from rfl]

/-- C3 counterexample: with order `m = 4` (so `⌈m/2⌉ = 2`), inserting
50, 40, 30, 20, 10 from a fresh tree leaves node 144 — a child of the
root 240, hence reachable — holding a single key: the claimed lower bound
`⌈m/2⌉ ≤ len` fails on a node produced by the insert path alone. -/
theorem occupancy_bound_counterexample :
    c3s.size = 4 ∧
    (c3s.size + 1) / 2 = 2 ∧
    c3s.root = some 240 ∧
    read_node c3s 240 = .ok ⟨⟨240, 1, 0⟩, [(40, ())], [48, 144]⟩ ∧
    read_node c3s 144 = .ok ⟨⟨144, 1, 1⟩, [(50, ())], []⟩ :=
  ⟨rfl, rfl, rfl, rfl, rfl⟩

/-- C10: removing the last remaining key — the tree being a root leaf
holding the single key `v`, probed with any key of equal identity —
returns `some v` and only rewrites that leaf with `len = 0`: the root
offset stays `r`, nothing is freed (`last` and `gone` are untouched).  On
the resulting state, for any probe, `get` returns `none`, `contains` is
`false`, and `remove` returns `none` leaving the state alone, exactly as
on a rootless tree; a subsequent insert of any key places it into the
retained root leaf at `r`, allocating nothing. -/
theorem remove_last_key_retains_root [LinearOrder K] (s : STree K D) (r : Nat)
    (v k j ins : K × D) (fuel : Nat)
    (hroot : s.root = some r)
    (hstore : s.store r = some (.node ⟨⟨r, 1, 1⟩, [v], []⟩))
    (hsz : 1 ≤ s.size)
    (hk : k.1 = v.1) :
    remove s k (fuel + 1) = .ok (some v, write_node s ⟨⟨r, 0, 1⟩, [], []⟩) ∧
    (write_node s ⟨⟨r, 0, 1⟩, [], []⟩).root = some r ∧
    (write_node s ⟨⟨r, 0, 1⟩, [], []⟩).last = s.last ∧
    (write_node s ⟨⟨r, 0, 1⟩, [], []⟩).gone = s.gone ∧
    get (write_node s ⟨⟨r, 0, 1⟩, [], []⟩) j fuel = .ok none ∧
    contains (write_node s ⟨⟨r, 0, 1⟩, [], []⟩) j fuel = .ok false ∧
    remove (write_node s ⟨⟨r, 0, 1⟩, [], []⟩) j fuel =
      .ok (none, write_node s ⟨⟨r, 0, 1⟩, [], []⟩) ∧
    insert_idx (write_node s ⟨⟨r, 0, 1⟩, [], []⟩) ins (fuel + 1) =
      .ok (.inl r, write_node (write_node s ⟨⟨r, 0, 1⟩, [], []⟩) ⟨⟨r, 1, 1⟩, [ins], []⟩) := by
  have hsz1 : ¬ s.size < 1 := by omega
  have hreadEmpty : read_node (write_node s ⟨⟨r, 0, 1⟩, [], []⟩) r =
      .ok ⟨⟨r, 0, 1⟩, [], []⟩ := by
    simp [read_node, write_node, hsz]
  constructor
  · -- the removal itself
    have hvk : ¬ v.1 < k.1 := by rw [hk]; exact lt_irrefl v.1
    have hbs : rustBinarySearch [v] k = .inl 0 := by
      simp [rustBinarySearch, hvk, hk.symm]
    simp only [remove, hroot, read_node, hstore]
    rw [if_neg (by simp), if_neg hsz1]
    simp [removeLoop, hbs, vremove, liftOpt, Bind.bind, Except.bind]
  have hr2 : (write_node s ⟨⟨r, 0, 1⟩, [], []⟩).root = some r := hroot
  refine ⟨hr2, rfl, rfl, ?_, ?_, ?_, ?_⟩
  · -- get on the emptied tree
    simp [get, hr2, hreadEmpty, Bind.bind, Except.bind]
  · -- contains on the emptied tree
    simp [contains, get, hr2, hreadEmpty, Bind.bind, Except.bind]
  · -- remove on the emptied tree
    simp [remove, hr2, hreadEmpty, Bind.bind, Except.bind]
  · -- the next insert lands in the retained root leaf
    have hne : ¬ ((0 : Nat) = s.size) := by omega
    have hbs : rustBinarySearch ([] : List (K × D)) ins = .inr 0 := rfl
    simp [insert_idx, hr2, hreadEmpty, hne, insertLoop, hbs, vinsert, liftOpt,
      Bind.bind, Except.bind]
    intro h0
    exfalso
    simp only [write_node] at h0
    omega

/-- Witness for C10 on the concrete order-6 tree holding only the key 1:
removing it retains the root leaf at 48 with no key, queries behave as on
an empty tree, and inserting 2 reuses that leaf. -/
theorem remove_last_key_retains_root_witness :
    remove c10s ((1 : Nat), ()) 6 = .ok (some (1, ()), write_node c10s ⟨⟨48, 0, 1⟩, [], []⟩) ∧
    (write_node c10s ⟨⟨48, 0, 1⟩, [], []⟩).root = some 48 ∧
    (write_node c10s ⟨⟨48, 0, 1⟩, [], []⟩).last = c10s.last ∧
    (write_node c10s ⟨⟨48, 0, 1⟩, [], []⟩).gone = c10s.gone ∧
    get (write_node c10s ⟨⟨48, 0, 1⟩, [], []⟩) ((7 : Nat), ()) 5 = .ok none ∧
    contains (write_node c10s ⟨⟨48, 0, 1⟩, [], []⟩) ((7 : Nat), ()) 5 = .ok false ∧
    remove (write_node c10s ⟨⟨48, 0, 1⟩, [], []⟩) ((7 : Nat), ()) 5 =
      .ok (none, write_node c10s ⟨⟨48, 0, 1⟩, [], []⟩) ∧
    insert_idx (write_node c10s ⟨⟨48, 0, 1⟩, [], []⟩) ((2 : Nat), ()) 6 =
      .ok (.inl 48, write_node (write_node c10s ⟨⟨48, 0, 1⟩, [], []⟩) ⟨⟨48, 1, 1⟩, [(2, ())], []⟩) :=
  remove_last_key_retains_root c10s 48 (1, ()) (1, ()) (7, ()) (2, ()) 5
    rfl rfl (by decide) rfl

/-- C3 amended: for every order `m ≥ 3` and every sequence of insert/get
operations from a fresh tree, every run succeeds and afterwards either the
tree is empty or every node reachable from `root` (as captured by the
derivation `Sub`, whose offsets are the distinct live record offsets below
`last`) satisfies `1 ≤ len ≤ m` at the root and `⌈m/2⌉ - 1 ≤ len ≤ m`
elsewhere — the code's actual lower bound, one less than the claimed
`⌈m/2⌉` — and all leaves sit at one uniform depth.  (`remove` is excluded:
it can panic, see C2, and its merge path is not reached by these runs.) -/
theorem occupancy_invariant_insert_get [LinearOrder K] (m szV : Nat) (hm : 3 ≤ m)
    (junk : Nat → Option Nat) (ops : List (Sum (K × D) (K × D))) :
    ∃ s1, runOps (newTree K D m szV junk) ops = .ok s1 ∧
      s1.size = m ∧ s1.gone = none ∧
      (s1.root = none ∨ ∃ r d os, s1.root = some r ∧ Sub s1 m true r d os ∧
        os.Nodup ∧ (∀ o ∈ os, o < s1.last)) := by
  have hinv0 : TreeInv (newTree K D m szV junk) m := ⟨rfl, rfl, Or.inl rfl⟩
  obtain ⟨s1, heq, hinv1⟩ := runOps_ok (by omega) ops (newTree K D m szV junk) hinv0
  exact ⟨s1, heq, hinv1⟩

theorem occupancy_invariant_insert_get_witness :
    3 ≤ 4 ∧ ∃ s1, runOps (newTree Nat Unit 4 8 (fun _ => none))
      [Sum.inl ((10 : Nat), ()), Sum.inl ((20 : Nat), ()), Sum.inr ((10 : Nat), ())] =
        .ok s1 ∧
      s1.size = 4 ∧ s1.gone = none ∧
      (s1.root = none ∨ ∃ r d os, s1.root = some r ∧ Sub s1 4 true r d os ∧
        os.Nodup ∧ (∀ o ∈ os, o < s1.last)) :=
  ⟨by decide, occupancy_invariant_insert_get 4 8 (by decide) (fun _ => none)
    [Sum.inl ((10 : Nat), ()), Sum.inl ((20 : Nat), ()), Sum.inr ((10 : Nat), ())]⟩

end Half2
